import Mathlib

/-!
Verification of the gotagger version-resolution engine.

Shallow embedding of the Go sources (gotagger.go, mapper/mapper.go,
internal/commit/commit.go, internal/git's repository helpers and the
config parsing in the gotagger package).  Go strings are modelled as
`List Char` (Go compares strings bytewise; for the ASCII data handled
here bytewise order coincides with the codepoint order used below).
External collaborators (the git subprocess) are modelled as explicit
function-valued fields of a `GitModel`, mirroring the Repository
interface the core depends on.
-/

/-- Go strings, modelled as lists of characters. -/
abbrev GoStr := List Char

/-- Literal helper: the character list of a Lean string literal. -/
def gs (s : String) : GoStr := s.data

/-- Models Go `strings.HasPrefix`. -/
def goHasPfx (s p : GoStr) : Bool := p.isPrefixOf s

/-- Models Go `strings.TrimPrefix`. -/
def trimPfx (s p : GoStr) : GoStr := if goHasPfx s p then s.drop p.length else s

/-- Models Go `strings.HasSuffix`. -/
def goHasSfx (s p : GoStr) : Bool := p.isSuffixOf s

/-- Models Go `strings.TrimSuffix`. -/
def trimSfx (s p : GoStr) : GoStr := if goHasSfx s p then s.take (s.length - p.length) else s

/-- Models Go `unicode.IsSpace` on the ASCII range (space, tab, newline,
vertical tab, form feed, carriage return). -/
def isGoSpace (c : Char) : Bool :=
  c = ' ' || c = '\t' || c = '\n' || c = '\r' || c.toNat = 11 || c.toNat = 12

/-- Models Go `strings.TrimSpace` (ASCII whitespace). -/
def trimSpace (s : GoStr) : GoStr :=
  ((s.dropWhile isGoSpace).reverse.dropWhile isGoSpace).reverse

/-- Models Go `strings.Split` with a one-character separator.  In
particular `splitOnChar sep [] = [[]]`, matching `strings.Split("", sep)`
returning a one-element slice holding the empty string. -/
def splitOnChar (sep : Char) : GoStr → List GoStr
  | [] => [[]]
  | c :: rest =>
    match splitOnChar sep rest with
    | [] => [[c]]
    | g :: tl => if c = sep then [] :: g :: tl else (c :: g) :: tl

/-- Split a string into lines, as `strings.Split(s, "\n")` does. -/
def splitLines (s : GoStr) : List GoStr := splitOnChar '\n' s

/-- ASCII digit test; models `unicode.IsDigit` / regexp `\d` on the data
that reaches it (tag names and module names are ASCII). -/
def isDigitChar (c : Char) : Bool := '0' ≤ c && c ≤ '9'

/-- ASCII lower-casing, used to model `strings.EqualFold` below. -/
def asciiToLower (c : Char) : Char :=
  if 'A' ≤ c && c ≤ 'Z' then Char.ofNat (c.toNat + 32) else c

/-- Models Go `strings.EqualFold` on ASCII strings (the only strings it is
applied to here are footer titles compared against ASCII constants). -/
def asciiEqFold (a b : GoStr) : Bool := a.map asciiToLower = b.map asciiToLower

/-- Decimal digits of a natural number, used to print versions. -/
def natToStr (n : Nat) : GoStr := (toString n).data

/-- Semantic version core, modelling `semver.Version` restricted to the
major/minor/patch triple (no pre-release or build metadata: the engine
only manufactures and compares core versions). -/
structure SemVer where
  major : Nat
  minor : Nat
  patch : Nat
deriving DecidableEq, Repr

/-- Models `a.LessThan b` / `a.Compare(b) < 0` for core versions. -/
def verLt (a b : SemVer) : Bool :=
  a.major < b.major ||
    (a.major = b.major && (a.minor < b.minor ||
      (a.minor = b.minor && a.patch < b.patch)))

/-- Models `semver.Version.IncMajor`. -/
def incMajor (v : SemVer) : SemVer := ⟨v.major + 1, 0, 0⟩

/-- Models `semver.Version.IncMinor`. -/
def incMinor (v : SemVer) : SemVer := ⟨v.major, v.minor + 1, 0⟩

/-- Models `semver.Version.IncPatch`. -/
def incPatch (v : SemVer) : SemVer := ⟨v.major, v.minor, v.patch + 1⟩

/-- Models `semver.Version.String` for core versions. -/
def showVer (v : SemVer) : GoStr :=
  natToStr v.major ++ '.' :: natToStr v.minor ++ '.' :: natToStr v.patch

/-- Value of a non-empty all-digit string. -/
def parseNatDigits (s : GoStr) : Option Nat :=
  if s ≠ [] && s.all isDigitChar then
    some (s.foldl (fun acc c => acc * 10 + (c.toNat - '0'.toNat)) 0)
  else none

/-- Models `semver.NewVersion` on canonical three-part core versions with
an optional leading `v` (the forms the engine itself builds and the tag
forms exercised below); other inputs are treated as parse errors. -/
def parseSemVer (s : GoStr) : Option SemVer :=
  let s' := match s with
    | 'v' :: rest => rest
    | other => other
  match splitOnChar '.' s' with
  | [a, b, c] =>
    match parseNatDigits a, parseNatDigits b, parseNatDigits c with
    | some x, some y, some z => some ⟨x, y, z⟩
    | _, _, _ => none
  | _ => none

/-- The type `mapper.Increment`, an int in the source (`iota` constants 0..3). -/
abbrev Increment := Nat

def IncrementNone : Nat := 0

def IncrementPatch : Nat := 1

def IncrementMinor : Nat := 2

def IncrementMajor : Nat := 3

/-- Models `mapper.Convert`; `none` models the error return. -/
def convertInc (s : GoStr) : Option Increment :=
  if s = gs "major" then some IncrementMajor
  else if s = gs "minor" then some IncrementMinor
  else if s = gs "patch" then some IncrementPatch
  else if s = gs "none" || s = [] then some IncrementNone
  else none

/-- The `mapper.Table` record: the type→increment mapping plus a default.  The Go
`Mapper` map is modelled as an association list with distinct keys (JSON
object keys after unmarshalling are unique). -/
structure Table where
  mapper : List (GoStr × Increment)
  defaultInc : Increment
deriving DecidableEq, Repr

/-- Association-list lookup, modelling a Go map read with distinct keys. -/
def lookupInc : List (GoStr × Increment) → GoStr → Option Increment
  | [], _ => none
  | (k, v) :: rest, key => if k = key then some v else lookupInc rest key

/-- Models `mapper.NewTable`: a nil mapper falls back to the default
commit-type mapper `{feat ↦ minor}`. -/
def newTable (tm : Option (List (GoStr × Increment))) (defInc : Increment) : Table :=
  ⟨tm.getD [(gs "feat", IncrementMinor)], defInc⟩

/-- Models `mapper.Table.Get`: the release type is pinned to patch, other
types use the mapping and fall back to the table default. -/
def tableGet (t : Table) (typ : GoStr) : Increment :=
  if typ = gs "release" then IncrementPatch
  else
    match lookupInc t.mapper typ with
    | some inc => inc
    | none => t.defaultInc

/-- Regexp `\w` (ASCII word character: letter, digit or underscore). -/
def isWordChar (c : Char) : Bool :=
  ('a' ≤ c && c ≤ 'z') || ('A' ≤ c && c ≤ 'Z') || isDigitChar c || c = '_'

/-- Character class of `footerRe`'s title group `[-\w ]`. -/
def isFooterTitleChar (c : Char) : Bool := isWordChar c || c = '-' || c = ' '

/-- A conventional-commit footer (`commit.Footer`). -/
structure Footer where
  title : GoStr
  text : GoStr
deriving DecidableEq, Repr

/-- The `commit.Revert` metadata. -/
structure RevertInfo where
  header : GoStr
  hash : GoStr
deriving DecidableEq, Repr

/-- The parsed conventional commit (`commit.Commit`). -/
structure CommitMsg where
  ctype : GoStr
  scope : GoStr
  subject : GoStr
  body : GoStr
  breaking : Bool
  header : GoStr
  footers : List Footer
  merge : Bool
  revert : RevertInfo
deriving DecidableEq, Repr

/-- The all-empty commit returned for non-matching messages. -/
def zeroCommitMsg : CommitMsg := ⟨[], [], [], [], false, [], [], false, ⟨[], []⟩⟩

/-- Matching of `footerRe` = `^(?P<title>[-\w ]+): (?P<text>.*)` against one
line, returning the title and text captures.  The greedy `[-\w ]+` run can
only be the maximal class run: its interior contains no `:`, so no shorter
backtracking split can satisfy the following literal `: `. -/
def footerReMatch (l : GoStr) : Option Footer :=
  let t := l.takeWhile isFooterTitleChar
  if t ≠ [] && goHasPfx (l.drop t.length) (gs ": ") then
    some ⟨t, l.drop (t.length + 2)⟩
  else none

/-- Matching of `typeRe` =
`^(?P<type>\w+)(?P<scope>\(\w+\))?(?P<breaking>!)?: (?P<subject>.+)`
against the header.  Returns `(type, scope-with-parens, bang, subject)`.
The scope alternative is forced: if the character after the type is `(`,
the optional group must match a well-formed `(\w+)` (skipping it leaves
`(` facing `!?: `, which fails), and otherwise it cannot match. -/
def typeReMatch (h : GoStr) : Option (GoStr × GoStr × Bool × GoStr) :=
  let t := h.takeWhile isWordChar
  if t = [] then none
  else
    let r1 := h.drop t.length
    let (scope, r2) :=
      match r1 with
      | '(' :: rest =>
        let inner := rest.takeWhile isWordChar
        if inner ≠ [] && (rest.drop inner.length).head? = some ')' then
          ('(' :: (inner ++ [')']), rest.drop (inner.length + 1))
        else ((List.nil : GoStr), r1)
      | _ => ((List.nil : GoStr), r1)
    let (bang, r3) :=
      match r2 with
      | '!' :: rest => (true, rest)
      | _ => (false, r2)
    match r3 with
    | ':' :: ' ' :: rest =>
      let subj := rest.takeWhile (fun c => c ≠ '\n')
      if subj = [] then none else some (t, scope, bang, subj)
    | _ => none

/-- Models Go `strings.Trim(s, "()")`, as applied to the scope capture. -/
def trimParens (s : GoStr) : GoStr :=
  let isParen : Char → Bool := fun c => c = '(' || c = ')'
  ((s.dropWhile isParen).reverse.dropWhile isParen).reverse

/-- Matching of `mergeRe` = `^Merge "(.*)"$` against the header line: the
capture is everything between the literal prefix and the final quote. -/
def mergeReMatch (h : GoStr) : Option GoStr :=
  if goHasPfx h (gs "Merge \"") && h.length ≥ 8 && h.getLast? = some '"' then
    some ((h.drop 7).dropLast)
  else none

/-- The suffix of `revertRe` after the closing quote:
`\s*This reverts commit (\w+)\.` returning the hash capture. -/
def revertTailMatch (tail : GoStr) : Option GoStr :=
  let t := tail.dropWhile isGoSpace
  if goHasPfx t (gs "This reverts commit ") then
    let r := t.drop 20
    let w := r.takeWhile isWordChar
    if w ≠ [] && (r.drop w.length).head? = some '.' then some w else none
  else none

/-- Scans for the longest split `l = inner ++ '"' :: tail` whose tail
matches `revertTailMatch`, modelling the greedy `([\s\S]+)"` capture. -/
def revertScan : GoStr → Option (GoStr × GoStr)
  | [] => none
  | c :: cs =>
    match revertScan cs with
    | some (inner, hsh) => some (c :: inner, hsh)
    | none =>
      if c = '"' then
        match revertTailMatch cs with
        | some w => some ([], w)
        | none => none
      else none

/-- Matching of `revertRe` =
`^Revert\s"([\s\S]+)"\s*This reverts commit (\w+)\.` against the whole
message, returning the reverted header and hash captures. -/
def revertReMatch (s : GoStr) : Option (GoStr × GoStr) :=
  if goHasPfx s (gs "Revert") then
    match s.drop 6 with
    | w :: '"' :: rest =>
      if isGoSpace w then
        match revertScan rest with
        | some (inner, hsh) => if inner = [] then none else some (inner, hsh)
        | none => none
      else none
    | _ => none
  else none

/-- The merge/revert unwrapping prelude of `commit.Parse`: returns the
effective header handed to `typeRe`, the merge flag, and revert info. -/
def parseHeaderInfo (s : GoStr) : GoStr × Bool × RevertInfo :=
  let lines := splitLines s
  let header := lines.headD []
  let (merge, header) :=
    match mergeReMatch header with
    | some m => (true, m)
    | none => (false, header)
  match revertReMatch s with
  | some (m, hsh) => (m, merge, ⟨m, hsh⟩)
  | none => (header, merge, ⟨[], []⟩)

/-- Does a footer title mark a breaking change (`strings.EqualFold` against
"BREAKING CHANGE" / "Breaking-Change")? -/
def isBreakingTitle (t : GoStr) : Bool :=
  asciiEqFold t (gs "BREAKING CHANGE") || asciiEqFold t (gs "Breaking-Change")

/-- Loop state of `parseMessageBody`: accumulated body, finished footers,
the footer being built, whether we are inside a footer, breaking flag. -/
structure BodyState where
  body : GoStr
  footers : List Footer
  f : Footer
  inFooter : Bool
  breaking : Bool
deriving Repr

/-- One iteration of the `parseMessageBody` loop over a message line. -/
def bodyStep (st : BodyState) (line : GoStr) : BodyState :=
  match footerReMatch line with
  | some f' =>
    { body := st.body
      footers := st.footers ++ (if st.inFooter then [st.f] else [])
      f := f'
      inFooter := true
      breaking := st.breaking || isBreakingTitle f'.title }
  | none =>
    if st.inFooter then
      { st with f := ⟨st.f.title, st.f.text ++ '\n' :: line⟩ }
    else
      { st with body := st.body ++ '\n' :: line }

/-- Models `parseMessageBody`: fold the lines, then flush the last footer
if one was started, and trim the body. -/
def parseMessageBody (lines : List GoStr) : GoStr × List Footer × Bool :=
  let st := lines.foldl bodyStep ⟨[], [], ⟨[], []⟩, false, false⟩
  (trimSpace st.body,
   st.footers ++ (if st.f.title ≠ [] then [st.f] else []),
   st.breaking)

/-- Models `commit.Parse`. -/
def parseCommitMsg (s : GoStr) : CommitMsg :=
  if s = [] then zeroCommitMsg
  else
    let lines := splitLines s
    let rest := lines.tail
    let (header, merge, revert) := parseHeaderInfo s
    match typeReMatch header with
    | none => zeroCommitMsg
    | some (t, scopeRaw, bang, subjRaw) =>
      let (body, footers, bodyBreaking) := parseMessageBody rest
      { ctype := t
        scope := trimParens scopeRaw
        subject := trimSpace subjRaw
        body := body
        breaking := bodyBreaking || bang
        header := header
        footers := footers
        merge := merge
        revert := revert }

/-- The bang capture (`m[3] == "!"`) of the effective header of a message. -/
def headerBang (s : GoStr) : Bool :=
  match typeReMatch (parseHeaderInfo s).1 with
  | some (_, _, bang, _) => bang
  | none => false

/-- A file-level delta of a commit (`git.Change`); the mode/SHA/action
fields are omitted as no embedded function reads them. -/
structure Change where
  sourceName : GoStr
  destName : GoStr
deriving DecidableEq, Repr

/-- A repository commit (`git.Commit`): the parsed message plus hash and
file changes. -/
structure GitCommit where
  msg : CommitMsg
  hash : GoStr
  changes : List Change
deriving DecidableEq, Repr

/-- The abstract repository collaborator: `tagsOutput pfx` is the raw
stdout of `git tag --merged HEAD --list pfx*` as consumed by
`Repository.Tags`; `revParseF` models `RevParse`; `revListF start end
path` models `RevList`; `dirty` models `IsDirty`. -/
structure GitModel where
  tagsOutput : GoStr → GoStr
  revParseF : GoStr → GoStr
  revListF : GoStr → GoStr → GoStr → List GitCommit
  dirty : Bool

/-- Models `Repository.Tags` (part_009 lines 188-207): trim the command
output and split on newlines.  An empty output therefore yields `[[]]`,
a one-element list holding the empty string. -/
def tagsM (g : GitModel) (pfx : GoStr) : List GoStr :=
  splitLines (trimSpace (g.tagsOutput pfx))

/-- Models a successful `strconv.Atoi`: optional sign then a non-empty
digit run. -/
def atoiOk (s : GoStr) : Bool :=
  match s with
  | [] => false
  | c :: rest =>
    if c = '+' || c = '-' then rest ≠ [] && rest.all isDigitChar
    else (c :: rest).all isDigitChar

/-- Panic message used to model an out-of-range string index. -/
def panicOOR : GoStr := gs "runtime error: index out of range"

/-- Models `git.hasPrefix` (part_009 lines 224-237).  The empty-prefix
branch evaluates `t[0:1]`, which panics when `t` is empty; the panic is
modelled as an `Except.error`. -/
def hasPfxGo (t : GoStr) : List GoStr → Except GoStr Bool
  | [] => Except.ok false
  | p :: rest =>
    if p = [] then
      match t with
      | [] => Except.error panicOOR
      | _ => if atoiOk (t.take 1) then Except.ok true else hasPfxGo t rest
    else if goHasPfx t p then Except.ok true
    else hasPfxGo t rest

/-- The `gotagger.Config` struct (the fields the embedded functions read). -/
structure Config where
  excludeModules : List GoStr := []
  ignoreModules : Bool := false
  preMajor : Bool := false
  versionPfx : GoStr := []
  dirtyInc : Increment := IncrementNone
  table : Table := ⟨[], IncrementPatch⟩
  paths : List GoStr := []

/-- Models `NewDefaultConfig` (restricted to the embedded fields). -/
def newDefaultConfig : Config :=
  { table := newTable none IncrementPatch, versionPfx := gs "v" }

/-- The private `config` struct filled by `json.Unmarshal` in
`Config.ParseJSON`; `incrementMappings` is the unmarshalled JSON object,
an association list with distinct keys. -/
structure RawConfig where
  defaultIncrement : GoStr := []
  incrementDirtyWorktree : GoStr := []
  excludeModules : List GoStr := []
  ignoreModules : Bool := false
  incrementMappings : List (GoStr × GoStr) := []
  incrementPreReleaseMinor : Bool := false
  versionPfxOpt : Option GoStr := none

/-- The mapping-conversion loop of `Config.ParseJSON`: convert every
configured increment, rejecting invalid tokens and major mappings. -/
def buildMappings : List (GoStr × GoStr) → Except GoStr (List (GoStr × Increment))
  | [] => Except.ok []
  | (t, i) :: rest =>
    match convertInc i with
    | none => Except.error (gs "invalid version increment")
    | some ci =>
      if ci = IncrementMajor then
        Except.error (gs "major version increments cannot be mapped to commit types")
      else
        match buildMappings rest with
        | Except.error e => Except.error e
        | Except.ok tbl => Except.ok ((t, ci) :: tbl)

/-- Models `Config.ParseJSON` after `json.Unmarshal` (part_019 lines
76-146): validate the dirty-worktree increment, apply the version prefix,
reject a `release` mapping, convert the mappings, then build the table
with the (defaulted) default increment. -/
def parseJSONValidate (c : Config) (cfg : RawConfig) : Except GoStr Config :=
  match convertInc cfg.incrementDirtyWorktree with
  | none => Except.error (gs "invalid dirty worktree increment")
  | some inc =>
    if inc = IncrementMajor then
      Except.error (gs "major version increments are not allowed for dirty worktrees")
    else
      let c := { c with dirtyInc := inc }
      let c :=
        match cfg.versionPfxOpt with
        | some p => { c with versionPfx := p }
        | none => c
      if (cfg.incrementMappings.map (·.1)).contains (gs "release") then
        Except.error (gs "release mapping is not allowed")
      else
        match buildMappings cfg.incrementMappings with
        | Except.error e => Except.error e
        | Except.ok tbl =>
          let tblOpt := if cfg.incrementMappings = [] then none else some tbl
          let defStr :=
            if cfg.defaultIncrement = [] then gs "patch" else cfg.defaultIncrement
          match convertInc defStr with
          | none => Except.error (gs "invalid version increment")
          | some def' =>
            Except.ok { c with
              table := newTable tblOpt def'
              excludeModules := cfg.excludeModules
              ignoreModules := cfg.ignoreModules
              preMajor := cfg.incrementPreReleaseMinor }

/-- A versionable unit (`gotagger.module`): directory path, declared
module name, and tag prefix (the source field is named `prefix`). -/
structure GoModule where
  path : GoStr
  name : GoStr
  pfx : GoStr
deriving DecidableEq, Repr

/-- Verbatim `sortByPath.Less`: note it returns `si.path < sj.path`
whenever `len(si.path) < len(sj.path)` fails, without comparing lengths
for the reverse direction. -/
def sortByPathLess (si sj : GoModule) : Bool :=
  if si.path.length < sj.path.length then true
  else decide (si.path < sj.path)

/-- One leftward insertion pass of Go's `insertionSort`, on the reversed
accumulated prefix: the new element keeps swapping left while `Less`
holds against its left neighbour. -/
def goInsertRev (e : GoModule) : List GoModule → List GoModule
  | [] => [e]
  | x :: xs => if sortByPathLess e x then x :: goInsertRev e xs else e :: x :: xs

/-- Go's `sort.Sort` as invoked by `sortByPath.Sort`: for slices shorter
than 12 elements (every era of the standard library) it is exactly
insertion sort with the interface's `Less`. -/
def goInsertionSort (l : List GoModule) : List GoModule :=
  (l.foldl (fun racc e => goInsertRev e racc) []).reverse

/-- The visit-order key of `filepath.Walk`: the walk reads each directory
sorted by name and recurses depth-first, so file paths are visited in
lexicographic order of their component lists.  Modelled from that
behaviour for the module-discovery order of `findAllModules`. -/
def walkKey (p : GoStr) : List GoStr := splitOnChar '/' p

/-- Discovery order of two go.mod files in the `filepath.Walk` of
`findAllModules`. -/
def walkVisitsBefore (a b : GoStr) : Bool := decide (walkKey a < walkKey b)

/-- The claimed module ordering: shallower paths first, lexicographic
among equal lengths (stated from the spec, for comparison with the
code's sort). -/
def specModuleOrdered (l : List GoModule) : Prop :=
  List.Pairwise
    (fun a b => a.path.length < b.path.length ∨
      (a.path.length = b.path.length ∧ a.path ≤ b.path)) l

/-- Models `filepath.Dir` for slash-separated paths without `.`/`..`
segments: drop the last component and any trailing separators; a
separator-free path gives `.`, an all-separator prefix gives `/`. -/
def goDir (p : GoStr) : GoStr :=
  let pre := (p.reverse.dropWhile (fun c => c ≠ '/')).dropWhile (fun c => c = '/')
  if '/' ∈ p then (if pre = [] then ['/'] else pre.reverse)
  else ['.']

/-- Iterated `goDir`. -/
def dirIter : Nat → GoStr → GoStr
  | 0, p => p
  | n + 1, p => dirIter n (goDir p)

/-- Association-list lookup modelling the module-path map reads (module
paths are distinct: one go.mod per directory). -/
def lookupModule : List (GoStr × GoModule) → GoStr → Option GoModule
  | [], _ => none
  | (k, v) :: rest, key => if k = key then some v else lookupModule rest key

/-- The walk-upward loop of `isModuleFile`, with explicit fuel; the Go
loop has no bound and diverges on rooted paths that match no module, so
exhausted fuel (`none` at fuel 0) models that divergence. -/
def findNearestLoop (mm : List (GoStr × GoModule)) : Nat → GoStr → Option GoModule
  | 0, _ => none
  | n + 1, dir =>
    match lookupModule mm dir with
    | some m => some m
    | none => if dir = gs "." then none else findNearestLoop mm n (goDir dir)

/-- Models `isModuleFile`: walk up from the file's directory until a
module path matches or the root `.` is reached.  The fuel
`filename.length + 2` is sufficient for every relative path (each `goDir`
step strictly shortens a non-rooted path). -/
def isModuleFileM (filename : GoStr) (mm : List (GoStr × GoModule)) : Option GoModule :=
  findNearestLoop mm (filename.length + 2) (goDir filename)

/-- String association-list lookup for the path map of `isPathFile`. -/
def lookupPath : List (GoStr × GoStr) → GoStr → Option GoStr
  | [], _ => none
  | (k, v) :: rest, key => if k = key then some v else lookupPath rest key

/-- The walk-upward loop of `isPathFile`, fuelled like
`findNearestLoop`. -/
def findNearestPathLoop (pm : List (GoStr × GoStr)) : Nat → GoStr → Option GoStr
  | 0, _ => none
  | n + 1, dir =>
    match lookupPath pm dir with
    | some p => some p
    | none => if dir = gs "." then none else findNearestPathLoop pm n (goDir dir)

/-- Models `isPathFile`. -/
def isPathFileM (filename : GoStr) (pm : List (GoStr × GoStr)) : Option GoStr :=
  findNearestPathLoop pm (filename.length + 2) (goDir filename)

/-- Models `mapModulesByPath`. -/
def mapModulesByPath (ms : List GoModule) : List (GoStr × GoModule) :=
  ms.map (fun m => (m.path, m))

/-- Does `groupCommitsByModule` attribute `commit` to module `m`?  One of
its changed files (source or non-empty destination name) must resolve to
`m` by the nearest-enclosing-directory walk. -/
def commitTouchesModule (mm : List (GoStr × GoModule)) (m : GoModule) (c : GitCommit) : Bool :=
  c.changes.any (fun ch =>
    isModuleFileM ch.sourceName mm = some m ||
      (ch.destName ≠ [] && isModuleFileM ch.destName mm = some m))

/-- Models `groupCommitsByModule commits modules m`: the commits grouped under
`m`.  The Go loop appends each commit at most once per module (the
`mappedModules` set) in commit order, which is exactly this filter. -/
def groupCommitsByModule (commits : List GitCommit) (modules : List GoModule)
    (m : GoModule) : List GitCommit :=
  commits.filter (commitTouchesModule (mapModulesByPath modules) m)

/-- Models `groupCommitsByPath commits paths p`: the commits grouped under path
`p`.  Unlike the module grouping, the source appends once per matching
change with no per-commit deduplication, and checks the destination name
even when empty; duplicates are therefore preserved. -/
def groupCommitsByPath (commits : List GitCommit) (paths : List GoStr)
    (p : GoStr) : List GitCommit :=
  let pm := paths.map (fun q => (q, q))
  commits.flatMap (fun c =>
    c.changes.flatMap (fun ch =>
      (if isPathFileM ch.sourceName pm = some p then [c] else []) ++
        (if isPathFileM ch.destName pm = some p then [c] else [])))

/-- The accumulator update of `parseCommits`' switch statement, verbatim:
minor/patch/none cases raise `vinc` under the written guards, and a
major `inc` (reachable only through the table default) matches no case. -/
def switchStep (vinc inc : Increment) : Increment :=
  if inc = IncrementMinor then (if vinc < IncrementMajor then inc else vinc)
  else if inc = IncrementPatch then (if vinc < IncrementMinor then inc else vinc)
  else if inc = IncrementNone then (if vinc < IncrementPatch then inc else vinc)
  else vinc

/-- The `parseCommits` loop: an unsuppressed breaking commit returns
major immediately; otherwise the commit's table increment feeds the
switch. -/
def parseCommitsLoop (cfg : Config) (v : SemVer) (vinc : Increment) :
    List GitCommit → Increment
  | [] => vinc
  | c :: cs =>
    let inc := tableGet cfg.table c.msg.ctype
    if c.msg.breaking && (!cfg.preMajor || v.major ≠ 0) then IncrementMajor
    else parseCommitsLoop cfg v (switchStep vinc inc) cs

/-- Models `Gotagger.parseCommits`. -/
def parseCommits (cfg : Config) (v : SemVer) (cs : List GitCommit) : Increment :=
  parseCommitsLoop cfg v IncrementNone cs

/-- Models `Gotagger.incrementVersion`: with commits present, apply the
parsed increment once; with none, apply the dirty-worktree policy. -/
def incrementVersion (g : GitModel) (cfg : Config) (v : SemVer)
    (commits : List GitCommit) : GoStr :=
  if commits.length > 0 then
    let change := parseCommits cfg v commits
    if change = IncrementMajor then showVer (incMajor v)
    else if change = IncrementMinor then showVer (incMinor v)
    else if change = IncrementPatch then showVer (incPatch v)
    else showVer v
  else
    if g.dirty && cfg.dirtyInc = IncrementMinor then showVer (incMinor v)
    else if g.dirty && cfg.dirtyInc = IncrementPatch then showVer (incPatch v)
    else showVer v

/-- Models `Gotagger.latest`: highest parsed tag version above the zero
version, with the hash of the last improvement (via `RevParse`). -/
def latestSimple (g : GitModel) (tags : List GoStr) (pfx : GoStr) : SemVer × GoStr :=
  tags.foldl
    (fun acc tag =>
      match parseSemVer (trimPfx tag pfx) with
      | some tver =>
        if verLt acc.1 tver then (tver, g.revParseF (tag ++ gs "^\x7bcommit\x7d"))
        else acc
      | none => acc)
    (⟨0, 0, 0⟩, [])

/-- Models `versionRegex.FindString` for `/v\d+$`: the trailing
`/v<digits>` of the module name, or the empty string. -/
def versionRegexFind (name : GoStr) : GoStr :=
  let revSeg := name.reverse.takeWhile (fun c => c ≠ '/')
  if (name.reverse.drop revSeg.length).head? = some '/' then
    match revSeg.reverse with
    | 'v' :: ds => if ds ≠ [] && ds.all isDigitChar then '/' :: 'v' :: ds else []
    | _ => []
  else []

/-- The selection loop of `latestModule` over the tag list. -/
def latestModuleLoop (mPfx : GoStr) (moduleVersion maximumVersion : SemVer) :
    List GoStr → Option (SemVer × GoStr) → Option (SemVer × GoStr)
  | [], acc => acc
  | tag :: rest, acc =>
    let acc' :=
      match parseSemVer (trimPfx tag mPfx) with
      | none => acc
      | some tver =>
        if verLt tver maximumVersion && !verLt tver moduleVersion then
          match acc with
          | none => some (tver, tag)
          | some (lv, _) => if verLt lv tver then some (tver, tag) else acc
        else acc
    latestModuleLoop mPfx moduleVersion maximumVersion rest acc'

/-- Models `Gotagger.latestModule`: derive the module's epoch version
from its name suffix, the exclusive ceiling (one extra bump for `v0`),
select the highest in-range tag, and fall back to the epoch with an
empty hash.  `none` models the (unreachable) `semver.NewVersion` error. -/
def latestModule (g : GitModel) (tags : List GoStr) (m : GoModule) :
    Option (SemVer × GoStr) :=
  let mv0 := trimPfx (versionRegexFind m.name) (gs "/")
  let mv := if mv0 = [] then gs "v0" else mv0
  match parseSemVer (mv ++ gs ".0.0") with
  | none => none
  | some moduleVersion =>
    let max1 := incMajor moduleVersion
    let maximumVersion := if mv = gs "v0" then incMajor max1 else max1
    match latestModuleLoop m.pfx moduleVersion maximumVersion tags none with
    | none => some (moduleVersion, [])
    | some (lv, ltag) => some (lv, g.revParseF (ltag ++ gs "^\x7bcommit\x7d"))

/-- The epoch (base) version `latestModule` derives from a module name. -/
def moduleEpoch (m : GoModule) : Option SemVer :=
  let mv0 := trimPfx (versionRegexFind m.name) (gs "/")
  let mv := if mv0 = [] then gs "v0" else mv0
  parseSemVer (mv ++ gs ".0.0")

/-- The exclusive ceiling `latestModule` derives from a module name. -/
def moduleCeiling (m : GoModule) : Option SemVer :=
  let mv0 := trimPfx (versionRegexFind m.name) (gs "/")
  let mv := if mv0 = [] then gs "v0" else mv0
  (moduleEpoch m).map (fun e => if mv = gs "v0" then incMajor (incMajor e) else incMajor e)

/-- The ceiling the claim ascribes to `latestModule`: `(N+1).0.0` for a
name encoding major `N`, else `2.0.0` (stated from the spec, for
comparison with the code's `moduleCeiling`). -/
def claimCeiling (m : GoModule) : SemVer :=
  let mv0 := trimPfx (versionRegexFind m.name) (gs "/")
  if mv0 = [] then ⟨2, 0, 0⟩
  else
    match parseSemVer (mv0 ++ gs ".0.0") with
    | some e => incMajor e
    | none => ⟨2, 0, 0⟩

/-- One iteration of the `versionsModules` loop for module `mod`:
compute the effective prefix, list tags, find the base version, and
either report the epoch verbatim (empty hash) or walk and increment. -/
def versionsModulesOne (g : GitModel) (cfg : Config) (modules : List GoModule)
    (mod : GoModule) : Option GoStr :=
  let pfx := if mod.pfx = [] then cfg.versionPfx else mod.pfx ++ cfg.versionPfx
  let tags := tagsM g pfx
  match latestModule g tags mod with
  | none => none
  | some (latest, hsh) =>
    if hsh = [] then some (pfx ++ showVer latest)
    else
      let commits := g.revListF (gs "HEAD") hsh mod.path
      let cs := groupCommitsByModule commits modules mod
      some (pfx ++ incrementVersion g cfg latest cs)

/-- The empty-prefix tag filter of `versionPath`: keep tags whose first
byte is a digit; indexing `tag[0]` of an empty tag panics. -/
def filterNoPfxTags : List GoStr → Except GoStr (List GoStr)
  | [] => Except.ok []
  | t :: ts =>
    match t with
    | [] => Except.error panicOOR
    | c :: _ =>
      match filterNoPfxTags ts with
      | Except.error e => Except.error e
      | Except.ok rest => Except.ok (if isDigitChar c then t :: rest else rest)

/-- Models `Gotagger.versionPath`: list tags for the configured prefix,
filter them when the prefix is empty, find the latest simple version,
walk the commits since it restricted to `p`, group by path and apply the
increment step.  Panics are modelled as errors. -/
def versionPath (g : GitModel) (cfg : Config) (p : GoStr) : Except GoStr GoStr :=
  let pfx := cfg.versionPfx
  let tags0 := tagsM g pfx
  match (if pfx = [] then filterNoPfxTags tags0 else Except.ok tags0) with
  | Except.error e => Except.error e
  | Except.ok tags =>
    let (latest, hsh) := latestSimple g tags pfx
    let commits := g.revListF (gs "HEAD") hsh p
    let cs := groupCommitsByPath commits cfg.paths p
    Except.ok (pfx ++ incrementVersion g cfg latest cs)

/-- Sorted ascending list of the name-set difference, modelling the
extra/missing construction in `validateCommitModules` (Go collects the
keys of a set-map, so duplicates are gone, and sorts them; any sorted
permutation of a duplicate-free list is this one). -/
def sortedNameDiff (as bs : List GoStr) : List GoStr :=
  List.insertionSort (· ≤ ·) ((as.dedup).filter (fun n => !(bs.dedup).contains n))

/-- Models `validateCommitModules` (gotagger.go lines 797-841): build the
two name sets, list and sort each difference, and produce the combined
message when either is non-empty. -/
def validateCommitModules (commitModules changedModules : List GoModule) : Option GoStr :=
  let commitNames := commitModules.map (·.name)
  let changedNames := changedModules.map (·.name)
  let extra := sortedNameDiff commitNames changedNames
  let missing := sortedNameDiff changedNames commitNames
  let msg :=
    (if extra ≠ [] then
      gs "\nmodules not changed by commit: " ++ List.intercalate (gs ", ") extra
     else []) ++
    (if missing ≠ [] then
      gs "\nchanged modules not released by commit: " ++ List.intercalate (gs ", ") missing
     else [])
  if msg ≠ [] then some (gs "module validation failed:" ++ msg) else none

/-- The highest non-major table increment contributed by a commit list:
commits whose effective increment is major contribute nothing (the
`parseCommits` switch has no major case). -/
def maxNonMajorInc (cfg : Config) (cs : List GitCommit) : Increment :=
  cs.foldl
    (fun a c =>
      let i := tableGet cfg.table c.msg.ctype
      if i = IncrementMajor then a else max a i)
    IncrementNone

/-- Does some footer carry a breaking-change title? -/
def hasBreakingFooter (fs : List Footer) : Bool :=
  fs.any (fun f => isBreakingTitle f.title)

/-- Is a path rooted (absolute), i.e. does it start with the separator? -/
def isRooted (p : GoStr) : Bool := goHasPfx p (gs "/")

/-- A well-formed increment value (the Go constants are 0..3). -/
abbrev validInc (i : Increment) : Prop := i ≤ IncrementMajor

/-- A table whose entries and default are well-formed increments (every
table the Go code can build satisfies this). -/
abbrev validTable (t : Table) : Prop :=
  (∀ p ∈ t.mapper, validInc p.2) ∧ validInc t.defaultInc

example : parseSemVer (gs "v1.2.3") = some ⟨1, 2, 3⟩ := by decide

example : tableGet (newTable none IncrementPatch) (gs "feat") = IncrementMinor := by decide

example : splitOnChar '\n' [] = [[]] := by decide

example : trimSpace (gs "  a b\n") = gs "a b" := by decide

example : (parseCommitMsg (gs "feat(api)!: add thing")).ctype = gs "feat" := by decide

example : (parseCommitMsg (gs "feat(api)!: add thing")).scope = gs "api" := by decide

example : (parseCommitMsg (gs "feat(api)!: add thing")).breaking = true := by decide

example : (parseCommitMsg (gs "not conventional")).ctype = [] := by decide

example :
    (parseCommitMsg (gs "fix: x\n\nbody line\n\nBREAKING CHANGE: boom")).breaking = true := by
  decide

example :
    (parseCommitMsg (gs "fix: x\n\nbody\n\nModules: foo, bar")).footers =
      [⟨gs "Modules", gs "foo, bar"⟩] := by decide

example :
    parseCommitMsg (gs "Revert \"feat: a\"\n\nThis reverts commit abc123.") =
      { zeroCommitMsg with
          ctype := gs "feat", subject := gs "a", header := gs "feat: a"
          body := gs "This reverts commit abc123."
          revert := ⟨gs "feat: a", gs "abc123"⟩ } := by decide

example : (parseCommitMsg (gs "Merge \"fix!: b\"")).merge = true := by decide

example : (parseCommitMsg (gs "Merge \"fix!: b\"")).breaking = true := by decide

example :
    goInsertionSort [⟨gs "a/a", gs "aa", gs "a/a/"⟩, ⟨gs "a.b.c", gs "abc", gs "a.b.c/"⟩] =
      [⟨gs "a.b.c", gs "abc", gs "a.b.c/"⟩, ⟨gs "a/a", gs "aa", gs "a/a/"⟩] := by decide

example : walkVisitsBefore (gs "a/a/go.mod") (gs "a.b.c/go.mod") = true := by decide

example :
    parseCommits { preMajor := true, table := ⟨[], IncrementMajor⟩ } ⟨0, 1, 0⟩
      [⟨{ zeroCommitMsg with ctype := gs "x", breaking := true }, gs "h", []⟩] =
      IncrementNone := by decide

example :
    latestModule ⟨fun _ => [], fun s => s, fun _ _ _ => [], false⟩ [gs "v1.5.0"]
      ⟨gs "mod0", gs "foo/v0", []⟩ =
      some (⟨1, 5, 0⟩, gs "v1.5.0^\x7bcommit\x7d") := by decide

example : claimCeiling ⟨gs "mod0", gs "foo/v0", []⟩ = ⟨1, 0, 0⟩ := by decide

example :
    versionPath
      ⟨fun _ => gs "v1.0.0", fun _ => gs "abc", fun _ _ _ => [], false⟩
      { newDefaultConfig with paths := [gs "."] } (gs ".") =
      Except.ok (gs "v1.0.0") := by rfl

example :
    versionPath
      ⟨fun _ => [], fun _ => [], fun _ _ _ => [], false⟩
      { newDefaultConfig with versionPfx := [], paths := [gs "."] } (gs ".") =
      Except.error panicOOR := by rfl

example : tagsM ⟨fun _ => [], fun _ => [], fun _ _ _ => [], false⟩ [] = [[]] := by decide

example : hasPfxGo [] [[]] = Except.error panicOOR := by rfl

example :
    (parseCommitMsg (gs "feat: x\n\n-Foo: bar")).footers = [⟨gs "-Foo", gs "bar"⟩] := by
  decide

example : (parseCommitMsg (gs "feat: x\n\n-Foo: bar")).body = [] := by decide

example :
    validateCommitModules [⟨gs ".", gs "foo", []⟩, ⟨gs "bar", gs "foo/bar", gs "bar/"⟩]
      [⟨gs "bar", gs "foo/bar", gs "bar/"⟩] =
      some (gs "module validation failed:\nmodules not changed by commit: foo") := by decide

example :
    isModuleFileM (gs "bar/baz/x.go")
      (mapModulesByPath [⟨gs ".", gs "foo", []⟩, ⟨gs "bar", gs "foo/bar", gs "bar/"⟩]) =
      some ⟨gs "bar", gs "foo/bar", gs "bar/"⟩ := by decide

/-- C1: the module ordering invariant fails on the code.  A repository
with go.mod files at a/a/go.mod and a.b.c/go.mod discovers a/a first
(the walk reads directory entries in name order and "a" sorts before
"a.b.c"); sorting with sortByPath.Less — which is not asymmetric, as the
last two conjuncts show — returns the longer path a.b.c before a/a,
violating the claimed (length ascending, lexicographic) order. -/
theorem c1_module_sort_order_violated :
    walkVisitsBefore (gs "a/a/go.mod") (gs "a.b.c/go.mod") = true ∧
    goInsertionSort
        [⟨gs "a/a", gs "example.com/aa", gs "a/a/"⟩,
         ⟨gs "a.b.c", gs "example.com/abc", gs "a.b.c/"⟩] =
      [⟨gs "a.b.c", gs "example.com/abc", gs "a.b.c/"⟩,
       ⟨gs "a/a", gs "example.com/aa", gs "a/a/"⟩] ∧
    ¬ specModuleOrdered
        (goInsertionSort
          [⟨gs "a/a", gs "example.com/aa", gs "a/a/"⟩,
           ⟨gs "a.b.c", gs "example.com/abc", gs "a.b.c/"⟩]) ∧
    sortByPathLess ⟨gs "a/a", gs "example.com/aa", gs "a/a/"⟩
        ⟨gs "a.b.c", gs "example.com/abc", gs "a.b.c/"⟩ = true ∧
    sortByPathLess ⟨gs "a.b.c", gs "example.com/abc", gs "a.b.c/"⟩
        ⟨gs "a/a", gs "example.com/aa", gs "a/a/"⟩ = true := by
  refine ⟨by decide, by decide, ?_, by decide, by decide⟩
  intro h
  simp only [specModuleOrdered] at h
  rw [show goInsertionSort
        [⟨gs "a/a", gs "example.com/aa", gs "a/a/"⟩,
         ⟨gs "a.b.c", gs "example.com/abc", gs "a.b.c/"⟩] =
      [⟨gs "a.b.c", gs "example.com/abc", gs "a.b.c/"⟩,
       ⟨gs "a/a", gs "example.com/aa", gs "a/a/"⟩] from by decide] at h
  rcases List.pairwise_cons.mp h with ⟨hrel, -⟩
  have h2 := hrel _ (List.mem_cons_self _ _)
  revert h2
  decide

/-- C9: with an empty version prefix and no tags, Repository.Tags returns
a one-element list holding the empty string (splitting the empty trimmed
output on newlines), and versionPath's digit filter then indexes the
first byte of that empty tag — an out-of-range panic — instead of
resolving to 0.0.0; git.hasPrefix performs the same unguarded indexing
for an empty prefix and empty tag. -/
theorem c9_empty_prefix_no_tags_panics :
    tagsM ⟨fun _ => [], fun _ => [], fun _ _ _ => [], false⟩ [] = [[]] ∧
    versionPath ⟨fun _ => [], fun _ => [], fun _ _ _ => [], false⟩
        { newDefaultConfig with versionPfx := [], paths := [gs "."] } (gs ".") =
      Except.error panicOOR ∧
    hasPfxGo [] [[]] = Except.error panicOOR :=
  ⟨by decide, by rfl, by rfl⟩

/-- C5: the increment looked up for commit type release is patch for
every table; ParseJSON rejects any configuration whose mapping object
contains the key release (whatever else the configuration holds); hence
a commit list holding exactly one (non-breaking) release commit resolves
to a patch increment under every configuration and base version. -/
theorem c5_release_type_pinned :
    (∀ t : Table, tableGet t (gs "release") = IncrementPatch) ∧
    (∀ (c : Config) (cfg : RawConfig),
      (cfg.incrementMappings.map (·.1)).contains (gs "release") = true →
      ∃ e, parseJSONValidate c cfg = Except.error e) ∧
    (∀ (cfg : Config) (v : SemVer) (m : CommitMsg) (hsh : GoStr) (ch : List Change),
      m.ctype = gs "release" → m.breaking = false →
      parseCommits cfg v [⟨m, hsh, ch⟩] = IncrementPatch) := by
  refine ⟨fun t => by simp [tableGet], ?_, ?_⟩
  · intro c cfg hrel
    have hrel' : gs "release" ∈ cfg.incrementMappings.map (·.1) := by simpa using hrel
    simp only [parseJSONValidate]
    rcases hconv : convertInc cfg.incrementDirtyWorktree with - | inc
    · exact ⟨_, rfl⟩
    · by_cases hmaj : inc = IncrementMajor
      · simp [hmaj]
      · simp [hmaj, hrel']
  · intro cfg v m hsh ch hty hbr
    simp [parseCommits, parseCommitsLoop, hty, hbr, tableGet, switchStep,
      IncrementNone, IncrementPatch, IncrementMinor, IncrementMajor]

/-- Witness for c5_release_type_pinned at concrete inputs. -/
theorem c5_release_type_pinned_witness :
    parseCommits newDefaultConfig ⟨1, 0, 0⟩
        [⟨{ zeroCommitMsg with ctype := gs "release" }, gs "h", []⟩] = IncrementPatch ∧
    ∃ e, parseJSONValidate newDefaultConfig
        { incrementMappings := [(gs "release", gs "minor")] } = Except.error e :=
  ⟨c5_release_type_pinned.2.2 newDefaultConfig ⟨1, 0, 0⟩ _ (gs "h") [] (by decide) (by decide),
   c5_release_type_pinned.2.1 newDefaultConfig _ (by decide)⟩

/-- C2 counterexample: with pre-major enabled, base version 0.1.0, and a
single breaking commit whose (unmapped) type falls back to a default
increment of major — a configuration ParseJSON accepts — parseCommits
returns no increment at all, although the commit's type maps to a
non-none increment. -/
theorem c2_counterexample_suppressed_to_none :
    parseCommits { preMajor := true, table := ⟨[], IncrementMajor⟩ } ⟨0, 1, 0⟩
        [⟨{ zeroCommitMsg with ctype := gs "x", breaking := true }, gs "h", []⟩] =
      IncrementNone ∧
    tableGet (⟨[], IncrementMajor⟩ : Table) (gs "x") ≠ IncrementNone ∧
    ({ zeroCommitMsg with ctype := gs "x", breaking := true } : CommitMsg).breaking = true := by
  refine ⟨by decide, by decide, by decide⟩

/-- C3 counterexample: for a module whose name ends in /v0 the code's
ceiling is 2.0.0, not the (0+1).0.0 = 1.0.0 the claim ascribes to an
encoded major: latestModule selects tag v1.5.0, which is not below the
claimed ceiling. -/
theorem c3_counterexample_v0_ceiling :
    versionRegexFind (gs "foo/v0") = gs "/v0" ∧
    moduleCeiling ⟨gs "mod0", gs "foo/v0", []⟩ = some ⟨2, 0, 0⟩ ∧
    claimCeiling ⟨gs "mod0", gs "foo/v0", []⟩ = ⟨1, 0, 0⟩ ∧
    latestModule ⟨fun _ => [], fun s => s, fun _ _ _ => [], false⟩ [gs "v1.5.0"]
        ⟨gs "mod0", gs "foo/v0", []⟩ =
      some (⟨1, 5, 0⟩, gs "v1.5.0^\x7bcommit\x7d") ∧
    verLt ⟨1, 5, 0⟩ (claimCeiling ⟨gs "mod0", gs "foo/v0", []⟩) = false := by
  refine ⟨by decide, by decide, by decide, by decide, by decide⟩

/-- C7 counterexample: a line whose would-be footer title begins with a
hyphen does start a footer — footerRe's class [-\w ] accepts a leading
hyphen (or space, or underscore) — rather than being treated as body
text as the claim states. -/
theorem c7_counterexample_leading_hyphen_title :
    (parseCommitMsg (gs "feat: x\n\n-Foo: bar")).footers = [⟨gs "-Foo", gs "bar"⟩] ∧
    (parseCommitMsg (gs "feat: x\n\n-Foo: bar")).body = [] ∧
    footerReMatch (gs "-Foo: bar") = some ⟨gs "-Foo", gs "bar"⟩ ∧
    (gs "-Foo").head? = some '-' := by
  refine ⟨by decide, by decide, by decide, by decide⟩

/-- C8: with no commits since the latest tag, a clean tree leaves the
base version unchanged; a dirty tree applies the configured
dirty-worktree increment (none, patch or minor) exactly once; and the
concrete scenario — one tag v1.0.0, zero commits since, clean tree —
resolves to v1.0.0. -/
theorem c8_empty_commit_list_policy :
    (∀ (g : GitModel) (cfg : Config) (v : SemVer),
      g.dirty = false → incrementVersion g cfg v [] = showVer v) ∧
    (∀ (g : GitModel) (cfg : Config) (v : SemVer), g.dirty = true →
      (cfg.dirtyInc = IncrementMinor → incrementVersion g cfg v [] = showVer (incMinor v)) ∧
      (cfg.dirtyInc = IncrementPatch → incrementVersion g cfg v [] = showVer (incPatch v)) ∧
      (cfg.dirtyInc = IncrementNone → incrementVersion g cfg v [] = showVer v)) ∧
    versionPath ⟨fun _ => gs "v1.0.0", fun _ => gs "abc", fun _ _ _ => [], false⟩
        { newDefaultConfig with paths := [gs "."] } (gs ".") = Except.ok (gs "v1.0.0") := by
  refine ⟨?_, ?_, by rfl⟩
  · intro g cfg v h
    simp [incrementVersion, h]
  · intro g cfg v h
    refine ⟨fun hm => ?_, fun hp => ?_, fun hn => ?_⟩
    · simp [incrementVersion, h, hm]
    · simp [incrementVersion, h, hp, IncrementPatch, IncrementMinor]
    · simp [incrementVersion, h, hn, IncrementNone, IncrementPatch, IncrementMinor]

/-- Witness for c8_empty_commit_list_policy: clean tree keeps 1.2.3;
a dirty tree with patch policy bumps it to 1.2.4. -/
theorem c8_empty_commit_list_policy_witness :
    incrementVersion ⟨fun _ => [], fun _ => [], fun _ _ _ => [], false⟩
        newDefaultConfig ⟨1, 2, 3⟩ [] = showVer ⟨1, 2, 3⟩ ∧
    incrementVersion ⟨fun _ => [], fun _ => [], fun _ _ _ => [], true⟩
        { newDefaultConfig with dirtyInc := IncrementPatch } ⟨1, 2, 3⟩ [] =
      showVer (incPatch ⟨1, 2, 3⟩) :=
  ⟨c8_empty_commit_list_policy.1 _ newDefaultConfig ⟨1, 2, 3⟩ rfl,
   (c8_empty_commit_list_policy.2.1 _ { newDefaultConfig with dirtyInc := IncrementPatch }
      ⟨1, 2, 3⟩ rfl).2.1 rfl⟩

theorem lookupInc_some_mem {m : List (GoStr × Increment)} {k : GoStr} {i : Increment}
    (h : lookupInc m k = some i) : ∃ p ∈ m, p.2 = i := by
  induction m with
  | nil => simp [lookupInc] at h
  | cons p rest ih =>
    rw [lookupInc] at h
    by_cases hk : p.1 = k
    · rw [if_pos hk] at h
      exact ⟨p, List.mem_cons_self _ _, (Option.some.injEq _ _).mp h⟩
    · rw [if_neg hk] at h
      obtain ⟨q, hq, hv⟩ := ih h
      exact ⟨q, List.mem_cons_of_mem _ hq, hv⟩

theorem tableGet_le_major {t : Table} (ht : validTable t) (typ : GoStr) :
    tableGet t typ ≤ IncrementMajor := by
  rw [tableGet]
  split
  · decide
  · rcases hl : lookupInc t.mapper typ with - | i
    · exact ht.2
    · obtain ⟨p, hp, hv⟩ := lookupInc_some_mem hl
      exact hv ▸ ht.1 p hp

theorem switchStep_eq_skip_max {vinc inc : Nat} (h : inc ≤ IncrementMajor) :
    switchStep vinc inc = if inc = IncrementMajor then vinc else max vinc inc := by
  have h3 : inc ≤ 3 := h
  have hs : switchStep vinc inc =
      if inc = 2 then (if vinc < 3 then inc else vinc)
      else if inc = 1 then (if vinc < 2 then inc else vinc)
      else if inc = 0 then (if vinc < 1 then inc else vinc)
      else vinc := by
    simp only [switchStep, IncrementNone, IncrementPatch, IncrementMinor, IncrementMajor]
  rw [hs, show IncrementMajor = 3 from rfl]
  interval_cases inc <;> simp only [Nat.max_def] <;> split_ifs <;>
    first
    | rfl
    | contradiction
    | omega

theorem foldl_skip_max_le_init (f : GitCommit → Increment) :
    ∀ (cs : List GitCommit) (a : Increment),
      a ≤ cs.foldl (fun x c => if f c = IncrementMajor then x else max x (f c)) a := by
  intro cs
  induction cs with
  | nil => intro a; simp
  | cons c rest ih =>
    intro a
    refine le_trans ?_ (ih _)
    show a ≤ if f c = IncrementMajor then a else max a (f c)
    split <;> simp

theorem foldl_skip_max_mem_le (f : GitCommit → Increment) {c0 : GitCommit}
    (hne : f c0 ≠ IncrementMajor) :
    ∀ (cs : List GitCommit) (a : Increment), c0 ∈ cs →
      f c0 ≤ cs.foldl (fun x c => if f c = IncrementMajor then x else max x (f c)) a := by
  intro cs
  induction cs with
  | nil => intro a h; simp at h
  | cons c rest ih =>
    intro a hmem
    rcases List.mem_cons.mp hmem with heq | hmem'
    · subst heq
      refine le_trans ?_ (foldl_skip_max_le_init f rest _)
      show f c0 ≤ if f c0 = IncrementMajor then a else max a (f c0)
      rw [if_neg hne]
      exact le_max_right _ _
    · exact ih _ hmem'

theorem parseCommitsLoop_suppressed {cfg : Config} {v : SemVer}
    (ht : validTable cfg.table) (hp : cfg.preMajor = true) (hv : v.major = 0) :
    ∀ (cs : List GitCommit) (vinc : Increment),
      parseCommitsLoop cfg v vinc cs =
        cs.foldl
          (fun x c =>
            if tableGet cfg.table c.msg.ctype = IncrementMajor then x
            else max x (tableGet cfg.table c.msg.ctype))
          vinc := by
  intro cs
  induction cs with
  | nil => intro vinc; rfl
  | cons c rest ih =>
    intro vinc
    rw [parseCommitsLoop]
    have hcond : (c.msg.breaking && (!cfg.preMajor || v.major ≠ 0)) = false := by
      rw [hp, hv]
      simp
    rw [if_neg (by rw [hcond]; exact Bool.false_ne_true)]
    rw [switchStep_eq_skip_max (tableGet_le_major ht _), ih]
    rfl

theorem parseCommitsLoop_breaking {cfg : Config} {v : SemVer}
    (hns : ¬(cfg.preMajor = true ∧ v.major = 0)) :
    ∀ (cs : List GitCommit) (vinc : Increment),
      (∃ c ∈ cs, c.msg.breaking = true) →
      parseCommitsLoop cfg v vinc cs = IncrementMajor := by
  intro cs
  induction cs with
  | nil => intro vinc h; simp at h
  | cons c rest ih =>
    intro vinc hex
    rw [parseCommitsLoop]
    by_cases hb : c.msg.breaking = true
    · have hcond : (c.msg.breaking && (!cfg.preMajor || v.major ≠ 0)) = true := by
        rw [hb, Bool.true_and]
        cases hcase : cfg.preMajor with
        | false => simp
        | true =>
          have hv : v.major ≠ 0 := fun h0 => hns ⟨hcase, h0⟩
          simp [hv]
      rw [if_pos hcond]
    · rcases hex with ⟨c', hc', hbr⟩
      rcases List.mem_cons.mp hc' with heq | hmem
      · exact absurd (heq ▸ hbr) hb
      · rw [if_neg (fun hca => hb (by rw [Bool.and_eq_true] at hca; exact hca.1))]
        exact ih _ ⟨c', hmem, hbr⟩

/-- C2 (amended): a commit list containing a breaking commit resolves to
a major increment, unless pre-major suppression applies (pre-major set
and base major 0), in which case the result is the highest increment
among commits whose effective (table) increment is not major — commits
whose type maps to major contribute nothing — and it is strictly greater
than none whenever some commit's type maps to patch or minor. -/
theorem c2_breaking_escalation :
    ∀ (cfg : Config) (v : SemVer) (cs : List GitCommit),
      validTable cfg.table →
      (∃ c ∈ cs, c.msg.breaking = true) →
      (¬(cfg.preMajor = true ∧ v.major = 0) → parseCommits cfg v cs = IncrementMajor) ∧
      (cfg.preMajor = true ∧ v.major = 0 →
        parseCommits cfg v cs = maxNonMajorInc cfg cs ∧
        ((∃ c ∈ cs, tableGet cfg.table c.msg.ctype = IncrementPatch ∨
            tableGet cfg.table c.msg.ctype = IncrementMinor) →
          parseCommits cfg v cs ≠ IncrementNone)) := by
  intro cfg v cs ht hex
  constructor
  · intro hns
    exact parseCommitsLoop_breaking hns cs IncrementNone hex
  · rintro ⟨hp, hv⟩
    have heq : parseCommits cfg v cs = maxNonMajorInc cfg cs := by
      rw [parseCommits, parseCommitsLoop_suppressed ht hp hv cs IncrementNone]
      rfl
    refine ⟨heq, ?_⟩
    rintro ⟨c0, hc0, hinc⟩
    rw [heq]
    have hne : tableGet cfg.table c0.msg.ctype ≠ IncrementMajor := by
      rcases hinc with h1 | h1 <;> rw [h1] <;> decide
    have hle : tableGet cfg.table c0.msg.ctype ≤
        cs.foldl
          (fun x c =>
            if tableGet cfg.table c.msg.ctype = IncrementMajor then x
            else max x (tableGet cfg.table c.msg.ctype))
          IncrementNone :=
      foldl_skip_max_mem_le (fun c => tableGet cfg.table c.msg.ctype) hne cs IncrementNone hc0
    intro hzero
    have hfold : maxNonMajorInc cfg cs =
        cs.foldl
          (fun x c =>
            if tableGet cfg.table c.msg.ctype = IncrementMajor then x
            else max x (tableGet cfg.table c.msg.ctype))
          IncrementNone := rfl
    rw [hfold] at hzero
    rw [hzero] at hle
    rcases hinc with h1 | h1 <;> rw [h1] at hle <;> exact absurd hle (by decide)

/-- Witness for c2_breaking_escalation: a breaking feat commit escalates
to major without suppression, and under suppression yields the minor
increment (non-zero). -/
theorem c2_breaking_escalation_witness :
    parseCommits { preMajor := false, table := newTable none IncrementPatch } ⟨0, 1, 0⟩
        [⟨{ zeroCommitMsg with ctype := gs "feat", breaking := true }, gs "h", []⟩] =
      IncrementMajor ∧
    parseCommits { preMajor := true, table := newTable none IncrementPatch } ⟨0, 1, 0⟩
        [⟨{ zeroCommitMsg with ctype := gs "feat", breaking := true }, gs "h", []⟩] =
      maxNonMajorInc { preMajor := true, table := newTable none IncrementPatch }
        [⟨{ zeroCommitMsg with ctype := gs "feat", breaking := true }, gs "h", []⟩] ∧
    parseCommits { preMajor := true, table := newTable none IncrementPatch } ⟨0, 1, 0⟩
        [⟨{ zeroCommitMsg with ctype := gs "feat", breaking := true }, gs "h", []⟩] ≠
      IncrementNone := by
  refine ⟨?_, ?_, ?_⟩
  · exact (c2_breaking_escalation _ ⟨0, 1, 0⟩ _ (by constructor <;> decide)
      ⟨_, List.mem_cons_self _ _, by decide⟩).1 (by decide)
  · exact ((c2_breaking_escalation _ ⟨0, 1, 0⟩ _ (by constructor <;> decide)
      ⟨_, List.mem_cons_self _ _, by decide⟩).2 ⟨rfl, rfl⟩).1
  · exact ((c2_breaking_escalation _ ⟨0, 1, 0⟩ _ (by constructor <;> decide)
      ⟨_, List.mem_cons_self _ _, by decide⟩).2 ⟨rfl, rfl⟩).2
      ⟨_, List.mem_cons_self _ _, by right; decide⟩

theorem footerReMatch_title_ne {l : GoStr} {f : Footer}
    (h : footerReMatch l = some f) : f.title ≠ [] := by
  rw [footerReMatch] at h
  by_cases hg : (l.takeWhile isFooterTitleChar ≠ [] &&
      goHasPfx (l.drop (l.takeWhile isFooterTitleChar).length) (gs ": ")) = true
  · rw [if_pos hg] at h
    rw [Bool.and_eq_true] at hg
    obtain ⟨hne, -⟩ := hg
    cases h
    simpa using hne
  · rw [if_neg hg] at h
    cases h

theorem hasBreakingFooter_append_single (l : List Footer) (f : Footer) :
    hasBreakingFooter (l ++ [f]) = (hasBreakingFooter l || isBreakingTitle f.title) := by
  simp [hasBreakingFooter]

theorem foldBody_inv (lines : List GoStr) :
    ∀ st : BodyState,
      (st.inFooter = true →
        st.breaking = hasBreakingFooter (st.footers ++ [st.f]) ∧ st.f.title ≠ []) →
      (st.inFooter = false → st.footers = [] ∧ st.f.title = [] ∧ st.breaking = false) →
      ((lines.foldl bodyStep st).inFooter = true →
        (lines.foldl bodyStep st).breaking =
          hasBreakingFooter
            ((lines.foldl bodyStep st).footers ++ [(lines.foldl bodyStep st).f]) ∧
        (lines.foldl bodyStep st).f.title ≠ []) ∧
      ((lines.foldl bodyStep st).inFooter = false →
        (lines.foldl bodyStep st).footers = [] ∧ (lines.foldl bodyStep st).f.title = [] ∧
        (lines.foldl bodyStep st).breaking = false) := by
  induction lines with
  | nil => intro st h1 h2; exact ⟨h1, h2⟩
  | cons line rest ih =>
    intro st h1 h2
    rw [List.foldl_cons]
    rcases hm : footerReMatch line with - | f'
    · have hbs : bodyStep st line =
          if st.inFooter = true then
            { st with f := ⟨st.f.title, st.f.text ++ '\n' :: line⟩ }
          else { st with body := st.body ++ '\n' :: line } := by
        rw [bodyStep, hm]
      rcases hsf : st.inFooter
      · rw [hsf] at hbs
        simp only [Bool.false_eq_true, if_false] at hbs
        rw [hbs]
        refine ih _ ?_ ?_
        · intro hh
          exact Bool.noConfusion hh
        · intro _
          exact h2 hsf
      · rw [hsf] at hbs
        simp only [if_true] at hbs
        rw [hbs]
        refine ih _ ?_ ?_
        · intro _
          obtain ⟨hbr, hti⟩ := h1 hsf
          rw [hasBreakingFooter_append_single] at hbr
          refine ⟨?_, by simpa using hti⟩
          show st.breaking =
            hasBreakingFooter (st.footers ++ [(⟨st.f.title, st.f.text ++ '\n' :: line⟩ : Footer)])
          rw [hasBreakingFooter_append_single]
          exact hbr
        · intro hh
          exact Bool.noConfusion hh
    · have hbs : bodyStep st line =
          ⟨st.body, st.footers ++ (if st.inFooter = true then [st.f] else []), f',
            true, st.breaking || isBreakingTitle f'.title⟩ := by
        rw [bodyStep, hm]
      rcases hsf : st.inFooter
      · rw [hsf] at hbs
        simp only [Bool.false_eq_true, if_false, List.append_nil] at hbs
        rw [hbs]
        refine ih _ ?_ ?_
        · intro _
          obtain ⟨hfo, -, hbr⟩ := h2 hsf
          refine ⟨?_, footerReMatch_title_ne hm⟩
          show (st.breaking || isBreakingTitle f'.title) =
            hasBreakingFooter (st.footers ++ [f'])
          rw [hasBreakingFooter_append_single, hbr, hfo]
          simp [hasBreakingFooter]
        · intro hh
          exact Bool.noConfusion hh
      · rw [hsf] at hbs
        simp only [if_true] at hbs
        rw [hbs]
        refine ih _ ?_ ?_
        · intro _
          obtain ⟨hbr, -⟩ := h1 hsf
          refine ⟨?_, footerReMatch_title_ne hm⟩
          show (st.breaking || isBreakingTitle f'.title) =
            hasBreakingFooter ((st.footers ++ [st.f]) ++ [f'])
          rw [hasBreakingFooter_append_single, ← hbr]
        · intro hh
          exact Bool.noConfusion hh

theorem parseMessageBody_breaking (lines : List GoStr) :
    (parseMessageBody lines).2.2 = hasBreakingFooter (parseMessageBody lines).2.1 := by
  rw [parseMessageBody]
  have h := foldBody_inv lines ⟨[], [], ⟨[], []⟩, false, false⟩
    (by intro h; cases h) (by intro _; exact ⟨rfl, rfl, rfl⟩)
  set st := lines.foldl bodyStep ⟨[], [], ⟨[], []⟩, false, false⟩ with hst
  rcases hin : st.inFooter
  · obtain ⟨hfo, hft, hbr⟩ := h.2 hin
    simp [hfo, hft, hbr, hasBreakingFooter]
  · obtain ⟨hbr, hti⟩ := h.1 hin
    simp only []
    rw [if_pos hti, hbr]

/-- C6: for every message whose header matches the conventional-commit
grammar, the Breaking flag is set iff the header carried the bang marker
or some footer's title equals (case-insensitively) "breaking change" or
"breaking-change"; otherwise it is false. -/
theorem c6_breaking_detection (s : GoStr) (hne : (parseCommitMsg s).ctype ≠ []) :
    (parseCommitMsg s).breaking =
      (headerBang s || hasBreakingFooter (parseCommitMsg s).footers) := by
  rw [parseCommitMsg] at hne ⊢
  by_cases hs : s = []
  · rw [if_pos hs] at hne
    exact absurd rfl hne
  · rw [if_neg hs] at hne ⊢
    rcases hm : typeReMatch (parseHeaderInfo s).1 with - | ⟨t, scopeRaw, bang, subjRaw⟩
    · rw [headerBang, hm]
      revert hne
      simp only [hm]
      intro h
      exact absurd rfl h
    · rw [headerBang, hm]
      simp only [hm]
      rw [parseMessageBody_breaking (splitLines s).tail]
      cases bang <;>
        cases hasBreakingFooter (parseMessageBody (splitLines s).tail).2.1 <;> rfl

/-- Witness for c6_breaking_detection at a concrete breaking message. -/
theorem c6_breaking_detection_witness :
    (parseCommitMsg (gs "fix: x\n\nBREAKING-CHANGE: boom")).breaking =
      (headerBang (gs "fix: x\n\nBREAKING-CHANGE: boom") ||
        hasBreakingFooter (parseCommitMsg (gs "fix: x\n\nBREAKING-CHANGE: boom")).footers) :=
  c6_breaking_detection (gs "fix: x\n\nBREAKING-CHANGE: boom") (by decide)

theorem drop_length_takeWhile (p : Char → Bool) :
    ∀ l : GoStr, l.drop (l.takeWhile p).length = l.dropWhile p := by
  intro l
  induction l with
  | nil => rfl
  | cons c cs ih =>
    by_cases hp : p c = true
    · rw [List.takeWhile_cons_of_pos hp, List.dropWhile_cons_of_pos hp]
      simpa using ih
    · rw [List.takeWhile_cons_of_neg (by simpa using hp),
        List.dropWhile_cons_of_neg (by simpa using hp)]
      rfl

theorem takeWhile_append_of_all {p : Char → Bool} :
    ∀ {t : GoStr}, (∀ c ∈ t, p c = true) →
      ∀ r : GoStr, (t ++ r).takeWhile p = t ++ r.takeWhile p := by
  intro t
  induction t with
  | nil => intro _ r; rfl
  | cons c cs ih =>
    intro hall r
    rw [List.cons_append, List.takeWhile_cons_of_pos (hall c (List.mem_cons_self _ _))]
    rw [ih (fun d hd => hall d (List.mem_cons_of_mem _ hd)) r]
    rfl

theorem footerReMatch_eq_some_iff (l t x : GoStr) :
    footerReMatch l = some ⟨t, x⟩ ↔
      (l = t ++ gs ": " ++ x ∧ t ≠ [] ∧ ∀ c ∈ t, isFooterTitleChar c = true) := by
  constructor
  · intro h
    rw [footerReMatch] at h
    by_cases hg : (l.takeWhile isFooterTitleChar ≠ [] &&
        goHasPfx (l.drop (l.takeWhile isFooterTitleChar).length) (gs ": ")) = true
    · rw [if_pos hg] at h
      rw [Bool.and_eq_true] at hg
      obtain ⟨hne, hpfx⟩ := hg
      rw [Option.some.injEq] at h
      have ht : l.takeWhile isFooterTitleChar = t := congrArg Footer.title h
      have hx : l.drop ((l.takeWhile isFooterTitleChar).length + 2) = x :=
        congrArg Footer.text h
      have hchars : ∀ c ∈ t, isFooterTitleChar c = true := by
        intro c hc
        rw [← ht] at hc
        exact List.mem_takeWhile_imp hc
      have hpre : gs ": " <+: l.drop (l.takeWhile isFooterTitleChar).length := by
        rw [← List.isPrefixOf_iff_prefix]
        exact hpfx
      obtain ⟨r, hr⟩ := hpre
      have hl : l =
          l.takeWhile isFooterTitleChar ++ l.drop (l.takeWhile isFooterTitleChar).length := by
        nth_rewrite 1 [← List.takeWhile_append_dropWhile (p := isFooterTitleChar) (l := l)]
        rw [drop_length_takeWhile]
      have hxr : x = r := by
        rw [← hx]
        have h2 : l.drop ((l.takeWhile isFooterTitleChar).length + 2) =
            (l.drop (l.takeWhile isFooterTitleChar).length).drop 2 := by
          rw [List.drop_drop, Nat.add_comm]
        rw [h2, ← hr]
        rfl
      refine ⟨?_, by rw [← ht]; simpa using hne, hchars⟩
      rw [hxr, ← ht]
      nth_rewrite 1 [hl]
      rw [← hr, List.append_assoc]
    · rw [if_neg hg] at h
      cases h
  · rintro ⟨hl, ht, hchars⟩
    rw [footerReMatch, hl]
    have htw : ((t ++ gs ": " ++ x).takeWhile isFooterTitleChar) = t := by
      rw [List.append_assoc, takeWhile_append_of_all hchars]
      rw [show List.takeWhile isFooterTitleChar (gs ": " ++ x) = [] from rfl, List.append_nil]
    rw [htw]
    have hdrop : (t ++ gs ": " ++ x).drop t.length = gs ": " ++ x := by
      rw [List.append_assoc]
      exact List.drop_left t (gs ": " ++ x)
    have hpfx : goHasPfx ((t ++ gs ": " ++ x).drop t.length) (gs ": ") = true := by
      rw [hdrop, goHasPfx, List.isPrefixOf_iff_prefix]
      exact ⟨x, rfl⟩
    rw [if_pos (by rw [Bool.and_eq_true]; exact ⟨by simpa using ht, hpfx⟩)]
    have hdrop2 : (t ++ gs ": " ++ x).drop (t.length + 2) = x := by
      have : t.length + 2 = (t ++ gs ": ").length := by simp [gs]
      rw [this, List.drop_left]
    rw [hdrop2]

theorem footerReMatch_title_chars {l : GoStr} {f : Footer}
    (h : footerReMatch l = some f) :
    f.title ≠ [] ∧ ∀ c ∈ f.title, isFooterTitleChar c = true := by
  obtain ⟨t, x⟩ := f
  obtain ⟨-, ht, hchars⟩ := (footerReMatch_eq_some_iff l t x).mp h
  exact ⟨by simpa using ht, hchars⟩

theorem foldBody_titles (lines : List GoStr) :
    ∀ st : BodyState,
      (∀ f ∈ st.footers, f.title ≠ [] ∧ ∀ c ∈ f.title, isFooterTitleChar c = true) →
      (st.inFooter = true →
        st.f.title ≠ [] ∧ ∀ c ∈ st.f.title, isFooterTitleChar c = true) →
      (st.inFooter = false → st.f.title = []) →
      ((∀ f ∈ (lines.foldl bodyStep st).footers,
          f.title ≠ [] ∧ ∀ c ∈ f.title, isFooterTitleChar c = true) ∧
       ((lines.foldl bodyStep st).inFooter = true →
          (lines.foldl bodyStep st).f.title ≠ [] ∧
          ∀ c ∈ (lines.foldl bodyStep st).f.title, isFooterTitleChar c = true) ∧
       ((lines.foldl bodyStep st).inFooter = false →
          (lines.foldl bodyStep st).f.title = [])) := by
  induction lines with
  | nil => intro st h1 h2 h3; exact ⟨h1, h2, h3⟩
  | cons line rest ih =>
    intro st h1 h2 h3
    rw [List.foldl_cons]
    rcases hm : footerReMatch line with - | f'
    · have hbs : bodyStep st line =
          if st.inFooter = true then
            { st with f := ⟨st.f.title, st.f.text ++ '\n' :: line⟩ }
          else { st with body := st.body ++ '\n' :: line } := by
        rw [bodyStep, hm]
      rcases hsf : st.inFooter
      · rw [hsf] at hbs
        simp only [Bool.false_eq_true, if_false] at hbs
        rw [hbs]
        exact ih _ h1 (fun hh => Bool.noConfusion hh) (fun _ => h3 hsf)
      · rw [hsf] at hbs
        simp only [if_true] at hbs
        rw [hbs]
        refine ih _ h1 (fun _ => ?_) (fun hh => Bool.noConfusion hh)
        obtain ⟨hne, hch⟩ := h2 hsf
        exact ⟨by simpa using hne, by simpa using hch⟩
    · have hbs : bodyStep st line =
          ⟨st.body, st.footers ++ (if st.inFooter = true then [st.f] else []), f',
            true, st.breaking || isBreakingTitle f'.title⟩ := by
        rw [bodyStep, hm]
      rw [hbs]
      refine ih _ ?_ (fun _ => footerReMatch_title_chars hm) (fun hh => Bool.noConfusion hh)
      intro f hf
      have hf' : f ∈ st.footers ++ (if st.inFooter = true then [st.f] else []) := hf
      rcases List.mem_append.mp hf' with hf1 | hf2
      · exact h1 f hf1
      · rcases hsf : st.inFooter
        · rw [hsf] at hf2
          simp at hf2
        · rw [hsf] at hf2
          simp only [if_true, List.mem_singleton] at hf2
          subst hf2
          exact h2 hsf

theorem parseMessageBody_footer_titles (lines : List GoStr) (f : Footer)
    (hf : f ∈ (parseMessageBody lines).2.1) :
    f.title ≠ [] ∧ ∀ c ∈ f.title, isFooterTitleChar c = true := by
  rw [parseMessageBody] at hf
  have h := foldBody_titles lines ⟨[], [], ⟨[], []⟩, false, false⟩
    (by intro f hf0; simp at hf0) (fun hh => Bool.noConfusion hh) (fun _ => rfl)
  set st := lines.foldl bodyStep ⟨[], [], ⟨[], []⟩, false, false⟩ with hst
  have hf' : f ∈ st.footers ++ (if st.f.title ≠ [] then [st.f] else []) := hf
  rcases List.mem_append.mp hf' with hf1 | hf2
  · exact h.1 f hf1
  · rcases hin : st.inFooter
    · rw [h.2.2 hin] at hf2
      simp at hf2
    · by_cases hti : st.f.title ≠ []
      · rw [if_pos hti] at hf2
        rw [List.mem_singleton] at hf2
        subst hf2
        exact h.2.1 hin
      · rw [if_neg hti] at hf2
        simp at hf2

/-- C7 (amended): a line in the body/footer region starts a new footer
iff it decomposes as title ++ ": " ++ text with a non-empty title whose
characters are letters, digits, underscores, hyphens or spaces — with no
constraint that the title start with an alphanumeric character; every
footer produced by parseMessageBody has such a title. -/
theorem c7_footer_line_grammar :
    (∀ l t x : GoStr,
      footerReMatch l = some ⟨t, x⟩ ↔
        (l = t ++ gs ": " ++ x ∧ t ≠ [] ∧ ∀ c ∈ t, isFooterTitleChar c = true)) ∧
    (∀ (lines : List GoStr) (f : Footer), f ∈ (parseMessageBody lines).2.1 →
      f.title ≠ [] ∧ ∀ c ∈ f.title, isFooterTitleChar c = true) :=
  ⟨footerReMatch_eq_some_iff, parseMessageBody_footer_titles⟩

/-- Witness for c7_footer_line_grammar at concrete inputs. -/
theorem c7_footer_line_grammar_witness :
    footerReMatch (gs "Modules: foo") = some ⟨gs "Modules", gs "foo"⟩ ∧
    ((gs "-Foo") ≠ [] ∧ ∀ c ∈ (gs "-Foo"), isFooterTitleChar c = true) :=
  ⟨(c7_footer_line_grammar.1 (gs "Modules: foo") (gs "Modules") (gs "foo")).mpr
      ⟨by decide, by decide, by decide⟩,
   c7_footer_line_grammar.2 [gs "-Foo: bar"] ⟨gs "-Foo", gs "bar"⟩ (by decide)⟩

theorem mem_sortedNameDiff {as bs : List GoStr} {n : GoStr} :
    n ∈ sortedNameDiff as bs ↔ n ∈ as ∧ ¬ n ∈ bs := by
  rw [sortedNameDiff, List.mem_insertionSort, List.mem_filter, List.mem_dedup]
  constructor
  · rintro ⟨h1, h2⟩
    refine ⟨h1, fun hc => ?_⟩
    rw [Bool.not_eq_true', ← Bool.not_eq_true] at h2
    exact h2 (List.elem_eq_true_of_mem (List.mem_dedup.mpr hc))
  · rintro ⟨h1, h2⟩
    refine ⟨h1, ?_⟩
    rw [Bool.not_eq_true', ← Bool.not_eq_true]
    intro hc
    exact h2 (List.mem_dedup.mp (List.mem_of_elem_eq_true hc))

theorem sorted_sortedNameDiff (as bs : List GoStr) :
    List.Sorted (· ≤ ·) (sortedNameDiff as bs) :=
  List.sorted_insertionSort _ _

theorem sortedNameDiff_eq_nil_iff {as bs : List GoStr} :
    sortedNameDiff as bs = [] ↔ ∀ n ∈ as, n ∈ bs := by
  constructor
  · intro h n hn
    by_contra hc
    have : n ∈ sortedNameDiff as bs := mem_sortedNameDiff.mpr ⟨hn, hc⟩
    rw [h] at this
    simp at this
  · intro h
    have : ∀ n, ¬ n ∈ sortedNameDiff as bs := by
      intro n hn
      obtain ⟨h1, h2⟩ := mem_sortedNameDiff.mp hn
      exact h2 (h n h1)
    cases hE : sortedNameDiff as bs with
    | nil => rfl
    | cons a l => exact absurd (hE ▸ List.mem_cons_self a l) (this a)

theorem validateCommitModules_eq_none_iff (declared changed : List GoModule) :
    validateCommitModules declared changed = none ↔
      (∀ n : GoStr, n ∈ declared.map GoModule.name ↔ n ∈ changed.map GoModule.name) := by
  rw [validateCommitModules]
  constructor
  · intro h n
    by_cases hmsg :
        ((if sortedNameDiff (declared.map GoModule.name) (changed.map GoModule.name) ≠ [] then
            gs "\nmodules not changed by commit: " ++
              List.intercalate (gs ", ")
                (sortedNameDiff (declared.map GoModule.name) (changed.map GoModule.name))
          else []) ++
          (if sortedNameDiff (changed.map GoModule.name) (declared.map GoModule.name) ≠ [] then
            gs "\nchanged modules not released by commit: " ++
              List.intercalate (gs ", ")
                (sortedNameDiff (changed.map GoModule.name) (declared.map GoModule.name))
          else [])) ≠ []
    · rw [if_pos hmsg] at h
      cases h
    · rw [not_not, List.append_eq_nil] at hmsg
      obtain ⟨he, hm⟩ := hmsg
      have hextra : sortedNameDiff (declared.map GoModule.name) (changed.map GoModule.name) = [] := by
        by_contra hc
        rw [if_pos hc] at he
        cases he
      have hmissing : sortedNameDiff (changed.map GoModule.name) (declared.map GoModule.name) = [] := by
        by_contra hc
        rw [if_pos hc] at hm
        cases hm
      exact ⟨fun hn => sortedNameDiff_eq_nil_iff.mp hextra n hn,
        fun hn => sortedNameDiff_eq_nil_iff.mp hmissing n hn⟩
  · intro h
    have hextra : sortedNameDiff (declared.map GoModule.name) (changed.map GoModule.name) = [] :=
      sortedNameDiff_eq_nil_iff.mpr (fun n hn => (h n).mp hn)
    have hmissing : sortedNameDiff (changed.map GoModule.name) (declared.map GoModule.name) = [] :=
      sortedNameDiff_eq_nil_iff.mpr (fun n hn => (h n).mpr hn)
    rw [hextra, hmissing]
    simp

/-- C4: validateCommitModules returns no error iff the declared and
changed name sets are equal; otherwise the error message lists extras
(declared minus changed) then missing (changed minus declared), each
sorted ascending. -/
theorem c4_validate_commit_modules (declared changed : List GoModule) :
    (validateCommitModules declared changed = none ↔
      (∀ n : GoStr, n ∈ declared.map GoModule.name ↔ n ∈ changed.map GoModule.name)) ∧
    (List.Sorted (· ≤ ·)
        (sortedNameDiff (declared.map GoModule.name) (changed.map GoModule.name)) ∧
      ∀ n : GoStr,
        n ∈ sortedNameDiff (declared.map GoModule.name) (changed.map GoModule.name) ↔
          (n ∈ declared.map GoModule.name ∧ ¬ n ∈ changed.map GoModule.name)) ∧
    (List.Sorted (· ≤ ·)
        (sortedNameDiff (changed.map GoModule.name) (declared.map GoModule.name)) ∧
      ∀ n : GoStr,
        n ∈ sortedNameDiff (changed.map GoModule.name) (declared.map GoModule.name) ↔
          (n ∈ changed.map GoModule.name ∧ ¬ n ∈ declared.map GoModule.name)) ∧
    (validateCommitModules declared changed ≠ none →
      validateCommitModules declared changed =
        some (gs "module validation failed:" ++
          ((if sortedNameDiff (declared.map GoModule.name) (changed.map GoModule.name) ≠ [] then
              gs "\nmodules not changed by commit: " ++
                List.intercalate (gs ", ")
                  (sortedNameDiff (declared.map GoModule.name) (changed.map GoModule.name))
            else []) ++
            (if sortedNameDiff (changed.map GoModule.name) (declared.map GoModule.name) ≠ [] then
              gs "\nchanged modules not released by commit: " ++
                List.intercalate (gs ", ")
                  (sortedNameDiff (changed.map GoModule.name) (declared.map GoModule.name))
            else [])))) := by
  refine ⟨validateCommitModules_eq_none_iff declared changed,
    ⟨sorted_sortedNameDiff _ _, fun n => mem_sortedNameDiff⟩,
    ⟨sorted_sortedNameDiff _ _, fun n => mem_sortedNameDiff⟩, ?_⟩
  intro hne
  rw [validateCommitModules] at hne ⊢
  by_cases hmsg :
      ((if sortedNameDiff (declared.map GoModule.name) (changed.map GoModule.name) ≠ [] then
          gs "\nmodules not changed by commit: " ++
            List.intercalate (gs ", ")
              (sortedNameDiff (declared.map GoModule.name) (changed.map GoModule.name))
        else []) ++
        (if sortedNameDiff (changed.map GoModule.name) (declared.map GoModule.name) ≠ [] then
          gs "\nchanged modules not released by commit: " ++
            List.intercalate (gs ", ")
              (sortedNameDiff (changed.map GoModule.name) (declared.map GoModule.name))
        else [])) ≠ []
  · rw [if_pos hmsg]
  · rw [if_neg hmsg] at hne
    exact absurd rfl hne

/-- Witness for c4_validate_commit_modules: equal sets give no error;
the scenario-5 mismatch reports foo as not changed by the commit. -/
theorem c4_validate_commit_modules_witness :
    validateCommitModules [⟨gs "bar", gs "foo/bar", gs "bar/"⟩]
        [⟨gs "bar", gs "foo/bar", gs "bar/"⟩] = none ∧
    validateCommitModules [⟨gs ".", gs "foo", []⟩, ⟨gs "bar", gs "foo/bar", gs "bar/"⟩]
        [⟨gs "bar", gs "foo/bar", gs "bar/"⟩] ≠ none :=
  ⟨(c4_validate_commit_modules _ _).1.mpr (fun n => Iff.rfl),
   fun h => by
    have := ((c4_validate_commit_modules
        [⟨gs ".", gs "foo", []⟩, ⟨gs "bar", gs "foo/bar", gs "bar/"⟩]
        [⟨gs "bar", gs "foo/bar", gs "bar/"⟩]).1.mp h (gs "foo")).mp (by decide)
    exact absurd this (by decide)⟩

theorem isRooted_iff_head (p : GoStr) : isRooted p = true ↔ p.head? = some '/' := by
  cases p with
  | nil => decide
  | cons c t =>
    show (('/' == c) && List.isPrefixOf [] t) = true ↔ some c = some '/'
    rw [show List.isPrefixOf ([] : List Char) t = true from by cases t <;> rfl]
    simp only [Bool.and_true, beq_iff_eq, Option.some.injEq]
    exact eq_comm

theorem goDir_no_slash {p : GoStr} (h : ¬('/' ∈ p)) : goDir p = gs "." := by
  simp only [goDir]
  rw [if_neg h]
  rfl

theorem reverse_getLast?_eq_head? (p : GoStr) : p.reverse.getLast? = p.head? :=
  List.getLast?_reverse p

theorem goDir_shrink {p : GoStr} (hnr : isRooted p = false) :
    goDir p = gs "." ∨
      ((goDir p).length < p.length ∧ isRooted (goDir p) = false) := by
  by_cases hsl : '/' ∈ p
  · have hpne : p ≠ [] := by rintro rfl; simp at hsl
    have hhead : p.head? ≠ some '/' := by
      intro hh
      rw [← isRooted_iff_head, hnr] at hh
      cases hh
    have hslr : '/' ∈ p.reverse := by simpa using hsl
    simp only [goDir]
    rw [if_pos hsl]
    set d := p.reverse.dropWhile (fun c => c ≠ '/') with hd
    set pre := d.dropWhile (fun c => c = '/') with hpre
    have hdne : d ≠ [] := by
      intro h0
      rw [hd, List.dropWhile_eq_nil_iff] at h0
      have := h0 '/' hslr
      simp at this
    have hdlast : d.getLast? = p.head? := by
      obtain ⟨t, ht⟩ := List.dropWhile_suffix (l := p.reverse) (fun c => c ≠ '/')
      rw [← reverse_getLast?_eq_head? p, ← ht]
      exact (List.getLast?_append_of_ne_nil t hdne).symm
    have hdh : d.head hdne = '/' := by
      have hw := List.head_dropWhile_not (fun c => decide (c ≠ '/')) p.reverse
        (by rw [← hd]; exact hdne)
      have h2 : decide ((d.head hdne) ≠ '/') = false := hw
      simpa using h2
    by_cases hpe : pre = []
    · exfalso
      rw [hpre, List.dropWhile_eq_nil_iff] at hpe
      have hmem : d.getLast hdne ∈ d := List.getLast_mem hdne
      have hlas : d.getLast hdne = '/' := by simpa using hpe _ hmem
      have : d.getLast? = some '/' := by
        rw [List.getLast?_eq_getLast d hdne, hlas]
      rw [hdlast] at this
      exact hhead this
    · rw [if_neg hpe]
      right
      constructor
      · rw [List.length_reverse]
        have h1 : pre.length ≤ d.tail.length := by
          have hdc : d.head hdne :: d.tail = d := List.head_cons_tail d hdne
          have : pre = d.tail.dropWhile (fun c => c = '/') := by
            rw [hpre]
            nth_rewrite 1 [← hdc]
            rw [hdh]
            rw [List.dropWhile_cons_of_pos (by simp)]
          rw [this]
          exact List.IsSuffix.length_le (List.dropWhile_suffix _)
        have h2 : d.length ≤ p.reverse.length := List.IsSuffix.length_le
          (by rw [hd]; exact List.dropWhile_suffix _)
        have h3 : 0 < d.length := List.length_pos.mpr hdne
        have h4 : d.tail.length = d.length - 1 := List.length_tail d
        rw [List.length_reverse] at h2
        omega
      · have hplast : pre.getLast? = d.getLast? := by
          obtain ⟨t, ht⟩ := List.dropWhile_suffix (l := d) (fun c => c = '/')
          rw [← ht]
          exact (List.getLast?_append_of_ne_nil t hpe).symm
        have hh : (pre.reverse).head? = p.head? := by
          rw [List.head?_reverse, hplast, hdlast]
        rw [← Bool.not_eq_true, isRooted_iff_head, hh]
        exact hhead
  · left
    exact goDir_no_slash hsl

theorem goDir_rooted {p : GoStr} (hr : isRooted p = true) : isRooted (goDir p) = true := by
  have hh : p.head? = some '/' := (isRooted_iff_head p).mp hr
  have hsl : '/' ∈ p := by
    cases p with
    | nil => cases hh
    | cons c t =>
      rw [List.head?_cons, Option.some.injEq] at hh
      rw [hh]
      exact List.mem_cons_self _ _
  simp only [goDir]
  rw [if_pos hsl]
  set d := p.reverse.dropWhile (fun c => c ≠ '/') with hd
  set pre := d.dropWhile (fun c => c = '/') with hpre
  by_cases hpe : pre = []
  · rw [if_pos hpe]
    decide
  · rw [if_neg hpe]
    have hslr : '/' ∈ p.reverse := by simpa using hsl
    have hdne : d ≠ [] := by
      intro h0
      rw [hd, List.dropWhile_eq_nil_iff] at h0
      have := h0 '/' hslr
      simp at this
    have hdlast : d.getLast? = p.head? := by
      obtain ⟨t, ht⟩ := List.dropWhile_suffix (l := p.reverse) (fun c => c ≠ '/')
      rw [← reverse_getLast?_eq_head? p, ← ht]
      exact (List.getLast?_append_of_ne_nil t hdne).symm
    have hplast : pre.getLast? = d.getLast? := by
      obtain ⟨t, ht⟩ := List.dropWhile_suffix (l := d) (fun c => c = '/')
      rw [← ht]
      exact (List.getLast?_append_of_ne_nil t hpe).symm
    rw [isRooted_iff_head, List.head?_reverse, hplast, hdlast]
    exact hh

theorem dirIter_reaches_root :
    ∀ (k : Nat) (p : GoStr), p.length ≤ k → isRooted p = false →
      ∃ n, dirIter n p = gs "." := by
  intro k
  induction k with
  | zero =>
    intro p hl _
    have hp : p = [] := List.length_eq_zero.mp (Nat.le_zero.mp hl)
    exact ⟨1, by rw [hp]; rfl⟩
  | succ k ih =>
    intro p hl hnr
    rcases goDir_shrink hnr with h | ⟨hlen, hnr'⟩
    · exact ⟨1, h⟩
    · obtain ⟨n, hn⟩ := ih (goDir p) (by omega) hnr'
      exact ⟨n + 1, hn⟩

theorem dirIter_rooted {p : GoStr} (hr : isRooted p = true) :
    ∀ n, isRooted (dirIter n p) = true := by
  intro n
  induction n generalizing p with
  | zero => exact hr
  | succ n ih => exact ih (goDir_rooted hr)

/-- C10: the nearest-enclosing-unit walk of isModuleFile / isPathFile
terminates on every relative path: iterated filepath.Dir strictly
shortens a non-rooted path until it reaches the root path, so the loop's
exit condition (a unit-map hit or dir = ".") is reached; a rooted path
matching no unit never satisfies the exit condition — filepath.Dir keeps
yielding rooted paths, never "." — so the unbounded Go loop diverges. -/
theorem c10_nearest_unit_walk :
    (∀ (p : GoStr) (mm : List (GoStr × GoModule)), isRooted p = false →
      ∃ n, (lookupModule mm (dirIter n (goDir p))).isSome = true ∨
        dirIter n (goDir p) = gs ".") ∧
    (∀ p : GoStr, isRooted p = false →
      goDir p = gs "." ∨ (goDir p).length < p.length) ∧
    (∀ (p : GoStr) (mm : List (GoStr × GoModule)), isRooted p = true →
      (∀ n, lookupModule mm (dirIter n p) = none) →
      ∀ n, ¬((lookupModule mm (dirIter n p)).isSome = true ∨ dirIter n p = gs ".")) ∧
    (∀ (p : GoStr) (pm : List (GoStr × GoStr)), isRooted p = true →
      (∀ n, lookupPath pm (dirIter n p) = none) →
      ∀ n, ¬((lookupPath pm (dirIter n p)).isSome = true ∨ dirIter n p = gs ".")) := by
  have hroot : ∀ p : GoStr, isRooted p = true → ∀ n, dirIter n p ≠ gs "." := by
    intro p hr n he
    have := dirIter_rooted hr n
    rw [he] at this
    cases this
  refine ⟨?_, ?_, ?_, ?_⟩
  · intro p mm hnr
    rcases goDir_shrink hnr with h | ⟨-, hnr'⟩
    · exact ⟨0, Or.inr h⟩
    · obtain ⟨n, hn⟩ := dirIter_reaches_root (goDir p).length (goDir p) le_rfl hnr'
      exact ⟨n, Or.inr hn⟩
  · intro p hnr
    rcases goDir_shrink hnr with h | ⟨hlen, -⟩
    · exact Or.inl h
    · exact Or.inr hlen
  · intro p mm hr hnone n
    rintro (hs | he)
    · rw [hnone n] at hs
      cases hs
    · exact hroot p hr n he
  · intro p pm hr hnone n
    rintro (hs | he)
    · rw [hnone n] at hs
      cases hs
    · exact hroot p hr n he

/-- Witness for c10_nearest_unit_walk: a concrete relative path reaches
the root; a concrete rooted path never satisfies the exit condition. -/
theorem c10_nearest_unit_walk_witness :
    (∃ n, (lookupModule [] (dirIter n (goDir (gs "a/b/c.go")))).isSome = true ∨
      dirIter n (goDir (gs "a/b/c.go")) = gs ".") ∧
    ¬((lookupModule [] (dirIter 5 (gs "/a"))).isSome = true ∨
      dirIter 5 (gs "/a") = gs ".") ∧
    ¬((lookupPath [] (dirIter 7 (gs "/x/y"))).isSome = true ∨
      dirIter 7 (gs "/x/y") = gs ".") :=
  ⟨c10_nearest_unit_walk.1 (gs "a/b/c.go") [] (by decide),
   c10_nearest_unit_walk.2.2.1 (gs "/a") [] (by decide) (fun _ => rfl) 5,
   c10_nearest_unit_walk.2.2.2 (gs "/x/y") [] (by decide) (fun _ => rfl) 7⟩

theorem verLt_char (a b : SemVer) :
    verLt a b = true ↔
      (a.major < b.major ∨ (a.major = b.major ∧
        (a.minor < b.minor ∨ (a.minor = b.minor ∧ a.patch < b.patch)))) := by
  simp [verLt]

theorem verLt_trans {a b c : SemVer} (h1 : verLt a b = true) (h2 : verLt b c = true) :
    verLt a c = true := by
  rw [verLt_char] at h1 h2 ⊢
  omega

theorem verLt_of_lt_of_nlt {a b c : SemVer} (h1 : verLt a b = true)
    (h2 : verLt c b = false) : verLt a c = true := by
  rw [verLt_char] at h1 ⊢
  rw [Bool.eq_false_iff, ne_eq, verLt_char] at h2
  omega

theorem verLt_irrefl (a : SemVer) : verLt a a = false := by
  rw [Bool.eq_false_iff, ne_eq, verLt_char]
  omega

theorem latestModuleLoop_none_of_no_inrange (mPfx : GoStr) (e ceil : SemVer) :
    ∀ tags : List GoStr,
      (∀ t ∈ tags, ∀ w : SemVer, parseSemVer (trimPfx t mPfx) = some w →
        ¬(verLt w ceil = true ∧ verLt w e = false)) →
      latestModuleLoop mPfx e ceil tags none = none := by
  intro tags
  induction tags with
  | nil => intro _; rfl
  | cons tag rest ih =>
    intro h
    rw [latestModuleLoop]
    rcases hp : parseSemVer (trimPfx tag mPfx) with - | tver
    · simp only []
      exact ih (fun t ht w hw => h t (List.mem_cons_of_mem _ ht) w hw)
    · simp only []
      have hni := h tag (List.mem_cons_self _ _) tver hp
      rw [if_neg (by
        rw [Bool.and_eq_true]
        rintro ⟨h1, h2⟩
        exact hni ⟨h1, by simpa using h2⟩)]
      exact ih (fun t ht w hw => h t (List.mem_cons_of_mem _ ht) w hw)

theorem latestModuleLoop_spec (mPfx : GoStr) (e ceil : SemVer) :
    ∀ (tags : List GoStr) (acc : Option (SemVer × GoStr)),
      (latestModuleLoop mPfx e ceil tags acc = none → acc = none) ∧
      (∀ lv ltag, latestModuleLoop mPfx e ceil tags acc = some (lv, ltag) →
        ((acc = some (lv, ltag) ∨
            (ltag ∈ tags ∧ parseSemVer (trimPfx ltag mPfx) = some lv ∧
              verLt lv ceil = true ∧ verLt lv e = false)) ∧
          (∀ t ∈ tags, ∀ w : SemVer, parseSemVer (trimPfx t mPfx) = some w →
            verLt w ceil = true → verLt w e = false → verLt lv w = false) ∧
          (∀ av atag, acc = some (av, atag) → verLt lv av = false))) := by
  intro tags
  induction tags with
  | nil =>
    intro acc
    refine ⟨fun h => h, fun lv ltag h => ?_⟩
    refine ⟨Or.inl h, fun t ht => absurd ht (List.not_mem_nil t), ?_⟩
    intro av atag hacc
    rw [hacc] at h
    have h3 : av = lv := by
      have h4 : (some (av, atag) : Option (SemVer × GoStr)) = some (lv, ltag) := h
      injection h4 with h5
      exact congrArg Prod.fst h5
    rw [h3]
    exact verLt_irrefl lv
  | cons tag rest ih =>
    intro acc
    rw [latestModuleLoop]
    rcases hp : parseSemVer (trimPfx tag mPfx) with - | tver
    · simp only []
      obtain ⟨ihn, ihs⟩ := ih acc
      refine ⟨ihn, fun lv ltag h => ?_⟩
      obtain ⟨hsel, hdom, haccd⟩ := ihs lv ltag h
      refine ⟨?_, ?_, haccd⟩
      · rcases hsel with h1 | ⟨ht, hrest⟩
        · exact Or.inl h1
        · exact Or.inr ⟨List.mem_cons_of_mem _ ht, hrest⟩
      · intro t ht w hw hwc hwe
        rcases List.mem_cons.mp ht with rfl | ht'
        · rw [hp] at hw
          cases hw
        · exact hdom t ht' w hw hwc hwe
    · simp only []
      by_cases hir : (verLt tver ceil && !verLt tver e) = true
      · rw [if_pos hir]
        rw [Bool.and_eq_true] at hir
        obtain ⟨hic, hie0⟩ := hir
        have hie : verLt tver e = false := by simpa using hie0
        rcases hacc : acc with - | ⟨lv0, ltag0⟩
        · simp only []
          obtain ⟨ihn, ihs⟩ := ih (some (tver, tag))
          refine ⟨fun h => absurd (ihn h) (by simp), fun lv ltag h => ?_⟩
          obtain ⟨hsel, hdom, haccd⟩ := ihs lv ltag h
          have hge_t : verLt lv tver = false := haccd tver tag rfl
          refine ⟨?_, ?_, fun av atag hx => Option.noConfusion hx⟩
          · rcases hsel with h1 | ⟨ht, hrest⟩
            · injection h1 with h2
              rw [show lv = tver from (congrArg Prod.fst h2).symm,
                show ltag = tag from (congrArg Prod.snd h2).symm]
              exact Or.inr ⟨List.mem_cons_self _ _, hp, hic, hie⟩
            · exact Or.inr ⟨List.mem_cons_of_mem _ ht, hrest⟩
          · intro t ht w hw hwc hwe
            rcases List.mem_cons.mp ht with rfl | ht'
            · rw [hp] at hw
              injection hw with hw2
              rw [← hw2]
              exact hge_t
            · exact hdom t ht' w hw hwc hwe
        · simp only []
          by_cases hup : verLt lv0 tver = true
          · rw [if_pos hup]
            obtain ⟨ihn, ihs⟩ := ih (some (tver, tag))
            refine ⟨fun h => absurd (ihn h) (by simp), fun lv ltag h => ?_⟩
            obtain ⟨hsel, hdom, haccd⟩ := ihs lv ltag h
            have hge_t : verLt lv tver = false := haccd tver tag rfl
            refine ⟨?_, ?_, ?_⟩
            · rcases hsel with h1 | ⟨ht, hrest⟩
              · injection h1 with h2
                rw [show lv = tver from (congrArg Prod.fst h2).symm,
                  show ltag = tag from (congrArg Prod.snd h2).symm]
                exact Or.inr ⟨List.mem_cons_self _ _, hp, hic, hie⟩
              · exact Or.inr ⟨List.mem_cons_of_mem _ ht, hrest⟩
            · intro t ht w hw hwc hwe
              rcases List.mem_cons.mp ht with rfl | ht'
              · rw [hp] at hw
                injection hw with hw2
                rw [← hw2]
                exact hge_t
              · exact hdom t ht' w hw hwc hwe
            · intro av atag hx
              injection hx with h2
              rw [show av = lv0 from (congrArg Prod.fst h2).symm]
              by_contra hlt
              rw [Bool.not_eq_false] at hlt
              have hc2 := verLt_of_lt_of_nlt (verLt_trans hlt hup) hge_t
              rw [verLt_char] at hc2
              omega
          · rw [if_neg hup]
            have hup' : verLt lv0 tver = false := by simpa using hup
            obtain ⟨ihn, ihs⟩ := ih (some (lv0, ltag0))
            refine ⟨fun h => absurd (ihn h) (by simp), fun lv ltag h => ?_⟩
            obtain ⟨hsel, hdom, haccd⟩ := ihs lv ltag h
            have hge_0 : verLt lv lv0 = false := haccd lv0 ltag0 rfl
            refine ⟨?_, ?_, ?_⟩
            · rcases hsel with h1 | ⟨ht, hrest⟩
              · exact Or.inl h1
              · exact Or.inr ⟨List.mem_cons_of_mem _ ht, hrest⟩
            · intro t ht w hw hwc hwe
              rcases List.mem_cons.mp ht with rfl | ht'
              · rw [hp] at hw
                injection hw with hw2
                rw [← hw2]
                by_contra hlt
                rw [Bool.not_eq_false] at hlt
                have hc2 := verLt_of_lt_of_nlt hlt hup'
                rw [hc2] at hge_0
                cases hge_0
              · exact hdom t ht' w hw hwc hwe
            · intro av atag hx
              injection hx with h2
              rw [show av = lv0 from (congrArg Prod.fst h2).symm]
              exact hge_0
      · rw [if_neg hir]
        rw [Bool.and_eq_true] at hir
        obtain ⟨ihn, ihs⟩ := ih acc
        refine ⟨ihn, fun lv ltag h => ?_⟩
        obtain ⟨hsel, hdom, haccd⟩ := ihs lv ltag h
        refine ⟨?_, ?_, haccd⟩
        · rcases hsel with h1 | ⟨ht, hrest⟩
          · exact Or.inl h1
          · exact Or.inr ⟨List.mem_cons_of_mem _ ht, hrest⟩
        · intro t ht w hw hwc hwe
          rcases List.mem_cons.mp ht with rfl | ht'
          · rw [hp] at hw
            injection hw with hw2
            rw [← hw2] at hwc hwe
            exact absurd ⟨hwc, by simpa using hwe⟩ hir
          · exact hdom t ht' w hw hwc hwe

theorem latestModule_eq (g : GitModel) (tags : List GoStr) (m : GoModule) (e ceil : SemVer)
    (he : moduleEpoch m = some e) (hc : moduleCeiling m = some ceil) :
    latestModule g tags m =
      (match latestModuleLoop m.pfx e ceil tags none with
       | none => some (e, [])
       | some (lv, ltag) => some (lv, g.revParseF (ltag ++ gs "^\x7bcommit\x7d"))) := by
  have he' : parseSemVer ((if trimPfx (versionRegexFind m.name) (gs "/") = [] then gs "v0"
      else trimPfx (versionRegexFind m.name) (gs "/")) ++ gs ".0.0") = some e := he
  have hcc : (if (if trimPfx (versionRegexFind m.name) (gs "/") = [] then gs "v0"
      else trimPfx (versionRegexFind m.name) (gs "/")) = gs "v0" then incMajor (incMajor e)
      else incMajor e) = ceil := by
    have hc' : Option.map
        (fun e0 => if (if trimPfx (versionRegexFind m.name) (gs "/") = [] then gs "v0"
          else trimPfx (versionRegexFind m.name) (gs "/")) = gs "v0" then
            incMajor (incMajor e0) else incMajor e0)
        (moduleEpoch m) = some ceil := hc
    rw [he, Option.map_some'] at hc'
    injection hc'
  simp only [latestModule, he']
  rw [hcc]

theorem latestModule_no_inrange_tags (g : GitModel) (tags : List GoStr) (m : GoModule)
    (e ceil : SemVer) (he : moduleEpoch m = some e) (hc : moduleCeiling m = some ceil)
    (hno : ∀ t ∈ tags, ∀ w : SemVer, parseSemVer (trimPfx t m.pfx) = some w →
      ¬(verLt w ceil = true ∧ verLt w e = false)) :
    latestModule g tags m = some (e, []) := by
  rw [latestModule_eq g tags m e ceil he hc,
    latestModuleLoop_none_of_no_inrange m.pfx e ceil tags hno]

theorem latestModuleLoop_ne_none (mPfx : GoStr) (e ceil : SemVer) :
    ∀ (tags : List GoStr) (acc : Option (SemVer × GoStr)) (t : GoStr), t ∈ tags →
      ∀ w : SemVer, parseSemVer (trimPfx t mPfx) = some w →
        verLt w ceil = true → verLt w e = false →
        latestModuleLoop mPfx e ceil tags acc ≠ none := by
  intro tags
  induction tags with
  | nil => intro acc t ht; exact absurd ht (List.not_mem_nil t)
  | cons tag rest ih =>
    intro acc t ht w hw hwc hwe
    rw [latestModuleLoop]
    rcases List.mem_cons.mp ht with rfl | ht'
    · rw [hw]
      simp only []
      rw [if_pos (by rw [Bool.and_eq_true]; exact ⟨hwc, by simpa using hwe⟩)]
      rcases acc with - | ⟨lv0, ltag0⟩
      · simp only []
        intro h
        exact Option.noConfusion ((latestModuleLoop_spec mPfx e ceil rest _).1 h)
      · simp only []
        by_cases hup : verLt lv0 w = true
        · rw [if_pos hup]
          intro h
          exact Option.noConfusion ((latestModuleLoop_spec mPfx e ceil rest _).1 h)
        · rw [if_neg hup]
          intro h
          exact Option.noConfusion ((latestModuleLoop_spec mPfx e ceil rest _).1 h)
    · rcases hp : parseSemVer (trimPfx tag mPfx) with - | tver
      · simp only []
        exact ih acc t ht' w hw hwc hwe
      · simp only []
        by_cases hir : (verLt tver ceil && !verLt tver e) = true
        · rw [if_pos hir]
          rcases acc with - | ⟨lv0, ltag0⟩
          · simp only []
            exact ih _ t ht' w hw hwc hwe
          · simp only []
            by_cases hup : verLt lv0 tver = true
            · rw [if_pos hup]
              exact ih _ t ht' w hw hwc hwe
            · rw [if_neg hup]
              exact ih _ t ht' w hw hwc hwe
        · rw [if_neg hir]
          exact ih acc t ht' w hw hwc hwe

/-- C3 (amended): latestModule selects the highest parsed tag version in
the half-open range [epoch, ceiling), where the epoch is N.0.0 for a
name ending in /vN and 0.0.0 otherwise, and the ceiling is (N+1).0.0 for
an encoded major N >= 1 but 2.0.0 both for unencoded names and for /v0
(the v0 case gets the extra bump); with no qualifying tag it returns the
epoch with an empty hash, and versionsModules then reports prefix+epoch
verbatim — for every commit lister and dirty flag, so no commit walk or
increment step can influence the result. -/
theorem c3_latest_module_selection :
    (∀ (g : GitModel) (tags : List GoStr) (m : GoModule) (e ceil : SemVer),
      moduleEpoch m = some e → moduleCeiling m = some ceil →
      ∃ r, latestModule g tags m = some r ∧
        ((r = (e, []) ∧
            ∀ t ∈ tags, ∀ w : SemVer, parseSemVer (trimPfx t m.pfx) = some w →
              ¬(verLt w ceil = true ∧ verLt w e = false)) ∨
         (∃ t ∈ tags, parseSemVer (trimPfx t m.pfx) = some r.1 ∧
            verLt r.1 ceil = true ∧ verLt r.1 e = false ∧
            r.2 = g.revParseF (t ++ gs "^\x7bcommit\x7d") ∧
            ∀ t' ∈ tags, ∀ w : SemVer, parseSemVer (trimPfx t' m.pfx) = some w →
              verLt w ceil = true → verLt w e = false → verLt r.1 w = false))) ∧
    (∀ (tagsOut revP : GoStr → GoStr) (rl : GoStr → GoStr → GoStr → List GitCommit)
        (dirty : Bool) (cfg : Config) (modules : List GoModule) (m : GoModule)
        (e ceil : SemVer),
      moduleEpoch m = some e → moduleCeiling m = some ceil →
      (∀ t ∈ tagsM ⟨tagsOut, revP, rl, dirty⟩
          (if m.pfx = [] then cfg.versionPfx else m.pfx ++ cfg.versionPfx),
        ∀ w : SemVer, parseSemVer (trimPfx t m.pfx) = some w →
          ¬(verLt w ceil = true ∧ verLt w e = false)) →
      versionsModulesOne ⟨tagsOut, revP, rl, dirty⟩ cfg modules m =
        some ((if m.pfx = [] then cfg.versionPfx else m.pfx ++ cfg.versionPfx) ++
          showVer e)) := by
  constructor
  · intro g tags m e ceil he hc
    rw [latestModule_eq g tags m e ceil he hc]
    rcases hloop : latestModuleLoop m.pfx e ceil tags none with - | ⟨lv, ltag⟩
    · refine ⟨(e, []), rfl, Or.inl ⟨rfl, ?_⟩⟩
      intro t ht w hw
      rintro ⟨hwc, hwe⟩
      exact latestModuleLoop_ne_none m.pfx e ceil tags none t ht w hw hwc hwe hloop
    · obtain ⟨hsel, hdom, -⟩ := ((latestModuleLoop_spec m.pfx e ceil tags none).2 lv ltag) hloop
      rcases hsel with h1 | ⟨ht, hparse, hic, hie⟩
      · exact Option.noConfusion h1
      · refine ⟨(lv, g.revParseF (ltag ++ gs "^\x7bcommit\x7d")), rfl, Or.inr ?_⟩
        exact ⟨ltag, ht, hparse, hic, hie, rfl, hdom⟩
  · intro tagsOut revP rl dirty cfg modules m e ceil he hc hno
    have hlm := latestModule_no_inrange_tags ⟨tagsOut, revP, rl, dirty⟩
      (tagsM ⟨tagsOut, revP, rl, dirty⟩
        (if m.pfx = [] then cfg.versionPfx else m.pfx ++ cfg.versionPfx))
      m e ceil he hc hno
    simp only [versionsModulesOne, hlm]
    simp

/-- Witness for c3_latest_module_selection at concrete inputs: an
unencoded module with one in-range tag, and a no-tag repository whose
module resolves to its epoch verbatim. -/
theorem c3_latest_module_selection_witness :
    (∃ r, latestModule ⟨fun _ => [], fun s => s, fun _ _ _ => [], false⟩ [gs "bar/v1.2.3"]
        ⟨gs "bar", gs "example.com/x", gs "bar/"⟩ = some r ∧
      ((r = (⟨0, 0, 0⟩, []) ∧
          ∀ t ∈ [gs "bar/v1.2.3"], ∀ w : SemVer,
            parseSemVer (trimPfx t (gs "bar/")) = some w →
            ¬(verLt w ⟨2, 0, 0⟩ = true ∧ verLt w ⟨0, 0, 0⟩ = false)) ∨
       (∃ t ∈ [gs "bar/v1.2.3"], parseSemVer (trimPfx t (gs "bar/")) = some r.1 ∧
          verLt r.1 ⟨2, 0, 0⟩ = true ∧ verLt r.1 ⟨0, 0, 0⟩ = false ∧
          r.2 = t ++ gs "^\x7bcommit\x7d" ∧
          ∀ t' ∈ [gs "bar/v1.2.3"], ∀ w : SemVer,
            parseSemVer (trimPfx t' (gs "bar/")) = some w →
            verLt w ⟨2, 0, 0⟩ = true → verLt w ⟨0, 0, 0⟩ = false →
            verLt r.1 w = false))) ∧
    versionsModulesOne ⟨fun _ => [], fun s => s, fun _ _ _ => [], false⟩ newDefaultConfig
        [⟨gs ".", gs "example.com/y", []⟩] ⟨gs ".", gs "example.com/y", []⟩ =
      some ((if ([] : GoStr) = [] then newDefaultConfig.versionPfx
        else [] ++ newDefaultConfig.versionPfx) ++ showVer ⟨0, 0, 0⟩) :=
  ⟨c3_latest_module_selection.1 ⟨fun _ => [], fun s => s, fun _ _ _ => [], false⟩
      [gs "bar/v1.2.3"] ⟨gs "bar", gs "example.com/x", gs "bar/"⟩ ⟨0, 0, 0⟩ ⟨2, 0, 0⟩
      (by rfl) (by rfl),
   c3_latest_module_selection.2 (fun _ => []) (fun s => s) (fun _ _ _ => []) false
      newDefaultConfig [⟨gs ".", gs "example.com/y", []⟩] ⟨gs ".", gs "example.com/y", []⟩
      ⟨0, 0, 0⟩ ⟨2, 0, 0⟩ (by rfl) (by rfl)
      (by
        intro t ht w hw
        rw [show tagsM ⟨fun _ => [], fun s => s, fun _ _ _ => [], false⟩
            (if ([] : GoStr) = [] then newDefaultConfig.versionPfx
              else [] ++ newDefaultConfig.versionPfx) = [[]] from rfl,
          List.mem_singleton] at ht
        subst ht
        exact Option.noConfusion hw)⟩
